import Mathlib

/-!
# Verification of the dataweave template-generation and file-merge core

This file gives a shallow embedding, over `List Char`, of the pure string
logic of the repository's core components:

* `DbtManager.getModelDirectory`, `addModelConfig`, `generateDefaultSql`,
  `parseBasicYaml`, `generateBasicYaml`, `updateSchema` and `generateModel`
  (src/dbt), and
* `DagsterManager.updateInitFile` (src/dagster),

together with theorems settling the frozen behavioural claims about them.
JavaScript strings are modelled as `List Char`; the ASCII whitespace
characters stand in for the JS whitespace class; JS regular-expression
matching is modelled by explicit scanning functions following the
backtracking semantics of the concrete patterns used by the source.
-/

set_option maxRecDepth 10000

namespace Dataweave

/-- JS strings, modelled as lists of characters. -/
abbrev Str := List Char

/-- Character data of a Lean string literal. -/
def chars (s : String) : Str := s.data

/-- ASCII whitespace, modelling the JS whitespace class for `trim` / `\s`. -/
def isWs (c : Char) : Bool :=
  c == ' ' || c == '\t' || c == '\n' || c == '\r' || c == '\x0b' || c == '\x0c'

/-- Drop leading whitespace. -/
def dropWsL : Str → Str
  | [] => []
  | c :: cs => if isWs c then dropWsL cs else c :: cs

/-- Drop trailing whitespace. -/
def dropWsR (l : Str) : Str := (dropWsL l.reverse).reverse

/-- JS `String.prototype.trim`. -/
def jsTrim (l : Str) : Str := dropWsR (dropWsL l)

/-- JS `String.prototype.startsWith` (first argument: the string, second: the sought prefix). -/
def startsWithL : Str → Str → Bool
  | _, [] => true
  | [], _ :: _ => false
  | c :: cs, p :: ps => c == p && startsWithL cs ps

/-- JS `String.prototype.includes`: substring containment. -/
def jsIncludes : Str → Str → Bool
  | [], sub => sub.isEmpty
  | c :: cs, sub => startsWithL (c :: cs) sub || jsIncludes cs sub

/-- JS `String.prototype.split` on a one-character separator. -/
def splitOnC (sep : Char) : Str → List Str
  | [] => [[]]
  | c :: cs =>
    if c == sep then [] :: splitOnC sep cs
    else
      match splitOnC sep cs with
      | [] => [[c]]
      | h :: t => (c :: h) :: t

/-- JS `Array.prototype.join` with a string separator. -/
def joinSep (sep : Str) : List Str → Str
  | [] => []
  | [x] => x
  | x :: y :: t => x ++ sep ++ joinSep sep (y :: t)

/-- Split a string into its lines (JS `split('\n')`). -/
def splitNl (s : Str) : List Str := splitOnC '\n' s

/-- Join lines with `'\n'` (JS `join('\n')`). -/
def joinNl (ls : List Str) : Str := joinSep ['\n'] ls

/-- Concatenation of `line ++ "\n"` blocks, the shape of all generated text. -/
def joinLines (ls : List Str) : Str := ls.foldr (fun l acc => l ++ '\n' :: acc) []

/-- Strip an expected literal prefix, returning the remainder. -/
def stripLit : Str → Str → Option Str
  | [], s => some s
  | _ :: _, [] => none
  | p :: ps, c :: cs => if c == p then stripLit ps cs else none

/-- First index satisfying a predicate (JS `Array.prototype.findIndex`). -/
def findIdxS (p : Str → Bool) : List Str → Option Nat
  | [] => none
  | x :: xs => if p x then some 0 else (findIdxS p xs).map (· + 1)

/-- Decimal rendering of a number (JS template interpolation of a number). -/
def natStr (n : Nat) : Str := (Nat.repr n).data

/-! ## Directory convention resolver (`DbtManager.getModelDirectory`) -/

/-- `DbtManager.getModelDirectory`: prefix-dispatch of a model name to its
directory, defaulting to `staging`. -/
def getModelDirectory (modelName : Str) : Str :=
  if startsWithL modelName (chars "stg_") then chars "staging"
  else if startsWithL modelName (chars "int_") then chars "intermediate"
  else if startsWithL modelName (chars "fct_") || startsWithL modelName (chars "dim_") then
    chars "marts"
  else chars "staging"

/-! ## Restricted-YAML document store (`parseBasicYaml` / `generateBasicYaml`) -/

/-- A column record of the metadata document (`DbtColumn`-shaped object as the
YAML layer sees it; absent JS fields are `none`). -/
structure ColRec where
  name : Str
  description : Option Str := none
  tests : Option (List Str) := none
deriving DecidableEq, Repr

/-- A model record of the metadata document. -/
structure ModelRec where
  name : Str
  description : Option Str := none
  tests : Option (List Str) := none
  columns : Option (List ColRec) := none
deriving DecidableEq, Repr

/-- The in-memory schema document (`{ version, models }`). -/
structure SchemaData where
  version : Nat
  models : List ModelRec
deriving DecidableEq, Repr

/-- State of the line scanner of `parseBasicYaml`. -/
structure PSt where
  cur : Option ModelRec
  cols : List ColRec
  inCols : Bool
  acc : List ModelRec
deriving Repr

/-- `trimmed.split(':')[1].trim()` of the source. -/
def nameFrom (t : Str) : Str := jsTrim ((splitOnC ':' t).getD 1 [])

/-- `trimmed.split(':').slice(1).join(':').trim()` of the source. -/
def descFrom (t : Str) : Str := jsTrim (joinSep [':'] ((splitOnC ':' t).drop 1))

/-- Close the current model of the scanner state, attaching collected columns. -/
def flushModel (st : PSt) : List ModelRec :=
  match st.cur with
  | none => st.acc
  | some m =>
    st.acc ++ [if st.cols.isEmpty then m else { m with columns := some st.cols }]

/-- One line of `parseBasicYaml`'s scanner loop. -/
def pstep (st : PSt) (line : Str) : PSt :=
  let t := jsTrim line
  if startsWithL t (chars "- name:") && !st.inCols then
    { cur := some { name := nameFrom t }, cols := [], inCols := false, acc := flushModel st }
  else if startsWithL t (chars "description:") && st.cur.isSome then
    { st with cur := st.cur.map (fun m => { m with description := some (descFrom t) }) }
  else if t == chars "columns:" then { st with inCols := true }
  else if startsWithL t (chars "- name:") && st.inCols then
    { st with cols := st.cols ++ [{ name := nameFrom t }] }
  else st

/-- `DbtManager.parseBasicYaml`: the restricted line scanner. -/
def parseBasicYaml (content : Str) : SchemaData :=
  let st := (splitNl content).foldl pstep { cur := none, cols := [], inCols := false, acc := [] }
  { version := 2, models := flushModel st }

/-- YAML block generated for one column by `generateBasicYaml`. -/
def colYaml (c : ColRec) : Str :=
  chars "      - name: " ++ c.name ++ ['\n']
  ++ (match c.description with
      | some d => if d.isEmpty then [] else chars "        description: " ++ d ++ ['\n']
      | none => [])
  ++ (match c.tests with
      | some ts =>
        if ts.isEmpty then []
        else chars "        tests:\n"
          ++ ts.foldl (fun a t => a ++ chars "          - " ++ t ++ ['\n']) []
      | none => [])

/-- YAML block generated for one model by `generateBasicYaml`. -/
def modelYaml (m : ModelRec) : Str :=
  chars "  - name: " ++ m.name ++ ['\n']
  ++ (match m.description with
      | some d => if d.isEmpty then [] else chars "    description: " ++ d ++ ['\n']
      | none => [])
  ++ (match m.tests with
      | some ts =>
        if ts.isEmpty then []
        else chars "    tests:\n" ++ ts.foldl (fun a t => a ++ chars "      - " ++ t ++ ['\n']) []
      | none => [])
  ++ (match m.columns with
      | some cs =>
        if cs.isEmpty then []
        else chars "    columns:\n" ++ cs.foldl (fun a c => a ++ colYaml c) []
      | none => [])
  ++ ['\n']

/-- `DbtManager.generateBasicYaml`: deterministic serialization of the document. -/
def generateBasicYaml (data : SchemaData) : Str :=
  chars "version: " ++ natStr data.version ++ chars "\n\nmodels:\n"
    ++ data.models.foldl (fun acc m => acc ++ modelYaml m) []

/-! ## ECMAScript string replacement

Both `String.prototype.replace` call sites of the sources pass a *string*
replacement value, so ECMAScript `GetSubstitution` applies to it: `$$`, `$&`
(the matched substring), a dollar before a backquote (the text preceding the
match), `$'` (the text following the match) and valid `$n`/`$nn` capture
references are expanded; a dollar before anything else, and `$n` with `n`
outside the capture range, are copied literally. -/

/-- ECMAScript `GetSubstitution`: expand the replacement template against the
matched substring, the text before the match, the text after the match, and
the capture list. -/
def getSubstitution (matched before after : Str) (caps : List Str) : Str → Str
  | [] => []
  | c :: rest =>
    if c = '$' then
      match rest with
      | '$' :: t => '$' :: getSubstitution matched before after caps t
      | '&' :: t => matched ++ getSubstitution matched before after caps t
      | '\x60' :: t => before ++ getSubstitution matched before after caps t
      | '\'' :: t => after ++ getSubstitution matched before after caps t
      | d1 :: t =>
        if d1.isDigit then
          match t with
          | d2 :: t2 =>
            if d2.isDigit then
              if 1 ≤ (d1.toNat - 48) * 10 + (d2.toNat - 48)
                  ∧ (d1.toNat - 48) * 10 + (d2.toNat - 48) ≤ caps.length then
                caps.getD ((d1.toNat - 48) * 10 + (d2.toNat - 48) - 1) []
                  ++ getSubstitution matched before after caps t2
              else if 1 ≤ d1.toNat - 48 ∧ d1.toNat - 48 ≤ caps.length then
                caps.getD (d1.toNat - 48 - 1) []
                  ++ getSubstitution matched before after caps (d2 :: t2)
              else '$' :: d1 :: getSubstitution matched before after caps (d2 :: t2)
            else if 1 ≤ d1.toNat - 48 ∧ d1.toNat - 48 ≤ caps.length then
              caps.getD (d1.toNat - 48 - 1) []
                ++ getSubstitution matched before after caps (d2 :: t2)
            else '$' :: d1 :: getSubstitution matched before after caps (d2 :: t2)
          | [] =>
            if 1 ≤ d1.toNat - 48 ∧ d1.toNat - 48 ≤ caps.length then
              caps.getD (d1.toNat - 48 - 1) []
            else ['$', d1]
        else '$' :: getSubstitution matched before after caps (d1 :: t)
      | [] => ['$']
    else c :: getSubstitution matched before after caps rest

/-! ## Template renderer (`DbtManager.addModelConfig`, `generateDefaultSql`)

The source tests `sql.includes('{{ config(')` and then replaces the first
match of the pattern `\{\{ config\([^}]+\) \}\}` with the string `configLine`
(so `GetSubstitution` applies to it; this pattern has no capture group).  For
this concrete pattern, JS backtracking semantics reduce to: at a candidate
position, take the maximal run of non-`}` characters after the literal; the
position matches exactly when that run ends with `") "` (with a nonempty body
before it) and is followed by `"}}"`.  `matchHdrAt`/`findHeader` implement
exactly that, earliest position first; the matched substring of such a match
is the full header text. -/

/-- The literal `"{{ config("` opening a configuration header. -/
def hdrLit : Str := chars "\x7b\x7b config("

/-- Split at the first `'}'` (run of non-`}` characters, and the rest). -/
def takeNonBrace : Str → Str × Str
  | [] => ([], [])
  | c :: cs =>
    if c == '}' then ([], c :: cs)
    else
      let p := takeNonBrace cs
      (c :: p.1, p.2)

/-- If `run = inner ++ [')', ' ']` with `inner ≠ []`, return `inner`. -/
def endsParenSpace (run : Str) : Option Str :=
  match run.reverse with
  | ' ' :: ')' :: c :: t => some ((c :: t).reverse)
  | _ => none

/-- Match the configuration-header pattern at the head of the string,
returning the header's body and the rest of the string after the header. -/
def matchHdrAt (s : Str) : Option (Str × Str) :=
  match stripLit hdrLit s with
  | none => none
  | some r =>
    let p := takeNonBrace r
    match p.2 with
    | '}' :: '}' :: after =>
      match endsParenSpace p.1 with
      | some inner => some (inner, after)
      | none => none
    | _ => none

/-- The full text of a configuration header with body `i`. -/
def hdrText (i : Str) : Str := hdrLit ++ i ++ [')', ' ', '}', '}']

/-- First match of the configuration-header pattern:
`(text before, header body, text after)`. -/
def findHeader : Str → Option (Str × Str × Str)
  | [] => none
  | c :: cs =>
    match matchHdrAt (c :: cs) with
    | some (i, a) => some ([], i, a)
    | none => (findHeader cs).map (fun r => (c :: r.1, r.2.1, r.2.2))

/-- The string contains exactly one configuration header (a first match whose
remainder contains no further match). -/
def headerOnce (s : Str) : Bool :=
  match findHeader s with
  | none => false
  | some (_, _, a) => (findHeader a).isNone

/-- The `materializedAs` union type of `DbtModelOptions`. -/
inductive Materialization
  | table
  | view
  | incremental
  | ephemeral
deriving DecidableEq, Repr

/-- Text of a materialization value. -/
def matStr : Materialization → Str
  | .table => chars "table"
  | .view => chars "view"
  | .incremental => chars "incremental"
  | .ephemeral => chars "ephemeral"

/-- The `configOptions` array built by `addModelConfig`. -/
def configOptions (m : Materialization) (tags : List Str) : List Str :=
  let base := [chars "materialized=\x27" ++ matStr m ++ chars "\x27"]
  if tags.isEmpty then base
  else base ++ [chars "tags=[\x27" ++ joinSep (chars "\x27, \x27") tags ++ chars "\x27]"]

/-- Body of the generated configuration header. -/
def configInner (m : Materialization) (tags : List Str) : Str :=
  joinSep (chars ", ") (configOptions m tags)

/-- The generated `configLine` of `addModelConfig`. -/
def configLine (m : Materialization) (tags : List Str) : Str :=
  hdrLit ++ configInner m tags ++ chars ") \x7d\x7d"

/-- A line that is neither blank nor a `--` comment. -/
def lineSubstantive (l : Str) : Bool :=
  !(jsTrim l).isEmpty && !startsWithL (jsTrim l) (chars "--")

/-- `DbtManager.addModelConfig`: replace an existing configuration header, or
insert one before the first substantive line. -/
def addModelConfig (sql : Str) (m : Materialization) (tags : List Str) : Str :=
  let cl := configLine m tags
  if jsIncludes sql hdrLit then
    match findHeader sql with
    | some (b, i, a) => b ++ getSubstitution (hdrText i) b a [] cl ++ a
    | none => sql
  else
    let ls := splitNl sql
    match findIdxS lineSubstantive ls with
    | none => cl ++ '\n' :: '\n' :: sql
    | some k => joinNl (ls.take k ++ [cl, []] ++ ls.drop k)

/-- `DbtManager.generateDefaultSql`: the placeholder model body. -/
def generateDefaultSql (modelName : Str) : Str :=
  chars "-- Generated model: " ++ modelName
    ++ chars "\n-- TODO: Replace this with your actual SQL logic\n\n\x7b\x7b config(materialized=\x27view\x27) \x7d\x7d\n\nselect\n    1 as id,\n    \x27sample\x27 as name,\n    current_timestamp as created_at\n\n-- TODO: Add your transformations here\n-- Uncomment and modify the following example:\n-- from \x7b\x7b ref(\x27source_table\x27) \x7d\x7d\n-- where condition = \x27value\x27\n"

/-! ## Schema upsert (`DbtManager.updateSchema`) and `generateModel` -/

/-- A column of `DbtModelOptions` (the caller-facing `DbtColumn`). -/
structure ColOpt where
  name : Str
  description : Option Str := none
  type : Option Str := none
  tests : Option (List Str) := none
deriving DecidableEq, Repr

/-- `columns.map(col => ({name, description, tests: col.tests || []}))` of
`updateSchema`. -/
def mapCol (c : ColOpt) : ColRec :=
  { name := c.name, description := c.description, tests := some (c.tests.getD []) }

/-- The in-place updates `updateSchema` applies to the found or created entry:
truthy description overwrites, nonempty tests overwrite, nonempty columns
replace wholesale. -/
def applyUpdates (desc : Str) (tests : List Str) (columns : List ColOpt)
    (m : ModelRec) : ModelRec :=
  let m1 := if desc.isEmpty then m else { m with description := some desc }
  let m2 := if tests.isEmpty then m1 else { m1 with tests := some tests }
  if columns.isEmpty then m2 else { m2 with columns := some (columns.map mapCol) }

/-- Update the first list entry satisfying `p` (JS `Array.prototype.find`
followed by in-place mutation). -/
def updateFirst (p : ModelRec → Bool) (f : ModelRec → ModelRec) :
    List ModelRec → List ModelRec
  | [] => []
  | x :: xs => if p x then f x :: xs else x :: updateFirst p f xs

/-- `DbtManager.updateSchema` as a content transform: `existing` is the schema
file's content if the file exists; the result is the content written back. -/
def updateSchemaContent (existing : Option Str) (modelName desc : Str)
    (columns : List ColOpt) (tests : List Str) : Str :=
  let d : SchemaData :=
    match existing with
    | some c => parseBasicYaml c
    | none => { version := 2, models := [] }
  let models2 :=
    if d.models.any (fun m => m.name == modelName) then
      updateFirst (fun m => m.name == modelName) (applyUpdates desc tests columns) d.models
    else d.models ++ [applyUpdates desc tests columns { name := modelName }]
  generateBasicYaml { version := d.version, models := models2 }

/-- The options record of `generateModel` (defaults as destructured in the
source). -/
structure GenOpts where
  name : Str
  sql : Option Str := none
  description : Option Str := none
  materializedAs : Option Materialization := none
  columns : List ColOpt := []
  tests : List Str := []
  tags : List Str := []
deriving Repr

/-- `DbtManager.generateModel` as its sequence of file writes
`(directory, file name, content)`; `existingSchema` is the current content of
the target directory's `schema.yml`, if present.  The source performs no
name validation: the write list is produced for every input. -/
def generateModelWrites (o : GenOpts) (existingSchema : Option Str) :
    List (Str × Str × Str) :=
  let modelDir := getModelDirectory o.name
  let sqlContent :=
    match o.sql with
    | some s => if s.isEmpty then generateDefaultSql o.name else s
    | none => generateDefaultSql o.name
  let sqlWithConfig := addModelConfig sqlContent (o.materializedAs.getD .view) o.tags
  [(modelDir, o.name ++ chars ".sql", sqlWithConfig),
   (modelDir, chars "schema.yml",
     updateSchemaContent existingSchema o.name (o.description.getD []) o.columns o.tests)]

/-! ## Declaration-file merger (`DagsterManager.updateInitFile`)

The source matches `/__all__\s*=\s*\[(.*?)\]/s`: earliest position where
`"__all__"`, then whitespace, `'='`, whitespace, `'['` occur, the lazy body
running to the first `']'`.  `matchAllAt`/`findAllC` implement exactly that. -/

/-- The literal `"__all__"`. -/
def allLit : Str := chars "__all__"

/-- The text `"__all__ = ["` opening the construct the merger writes. -/
def allHdr : Str := chars "__all__ = ["

/-- Split at the first `']'`: `(body before it, rest after it)`. -/
def scanClose : Str → Option (Str × Str)
  | [] => none
  | c :: cs =>
    if c == ']' then some ([], cs)
    else (scanClose cs).map (fun p => (c :: p.1, p.2))

/-- The construct pattern after the literal `__all__`: whitespace, `'='`,
whitespace, `'['`, then the lazy body up to the first `']'`. -/
def matchTail (r1 : Str) : Option (Str × Str) :=
  match dropWsL r1 with
  | '=' :: r2 =>
    match dropWsL r2 with
    | '[' :: r3 => scanClose r3
    | _ => none
  | _ => none

/-- Match the `__all__` construct pattern at the head of the string. -/
def matchAllAt (s : Str) : Option (Str × Str) :=
  match stripLit allLit s with
  | none => none
  | some r1 => matchTail r1

/-- First match of the `__all__` construct: `(before, list body, after)`. -/
def findAllC : Str → Option (Str × Str × Str)
  | [] => none
  | c :: cs =>
    match matchAllAt (c :: cs) with
    | some (i, a) => some ([], i, a)
    | none => (findAllC cs).map (fun r => (c :: r.1, r.2.1, r.2.2))

/-- `item.replace(/['"]/g, '')`: remove every quote character. -/
def stripQuotes (l : Str) : Str := l.filter (fun c => !(c == '\'' || c == '"'))

/-- Members parsed from a construct body: split on commas, trim, strip quotes. -/
def parseMembers (inner : Str) : List Str :=
  (splitOnC ',' inner).map (fun s => stripQuotes (jsTrim s))

/-- The generated import line `from .X import X`. -/
def importLineOf (item : Str) : Str :=
  chars "from ." ++ item ++ chars " import " ++ item

/-- An item wrapped in double quotes, as the merger emits the new symbol. -/
def dquote (s : Str) : Str := '"' :: s ++ ['"']

/-- The rewritten `__all__` construct text for a member-item list. -/
def allConstructOf (items : List Str) : Str :=
  allHdr ++ joinSep (chars ", ") items ++ [']']

/-- `DagsterManager.updateInitFile` as a content transform: `none` when the
operation returns without writing, `some c` when it writes content `c`.  The
construct rewrite is a `replace` with a *string* replacement, so
`GetSubstitution` applies to the rewritten construct text; the pattern has
one capture group (the list body). -/
def updateInitWrite (content item : Str) : Option Str :=
  if jsIncludes content (importLineOf item) then none
  else
    let c1 := content ++ importLineOf item ++ ['\n']
    some (match findAllC c1 with
      | some (b, i, a) =>
        let existing := parseMembers i
        if existing.contains item then c1
        else
          b ++ getSubstitution ((c1.drop b.length).take (c1.length - b.length - a.length))
            b a [i]
            (allConstructOf (existing.filter (fun s => !s.isEmpty) ++ [dquote item])) ++ a
      | none => c1 ++ chars "\n__all__ = [\"" ++ item ++ chars "\"]\n")

/-- File content after `updateInitFile` (unchanged when it does not write). -/
def updateInit (content item : Str) : Str := (updateInitWrite content item).getD content

/-- Members of the `__all__` construct of a file, as the merger itself would
parse them; `none` when the construct pattern does not occur. -/
def membersOf (content : Str) : Option (List Str) :=
  (findAllC content).map (fun r => parseMembers r.2.1)

/-- Content of an index file after a sequence of registrations starting from
an absent/empty file. -/
def initRun (syms : List Str) : Str := syms.foldl updateInit []

/-- A benign symbol name: nonempty, trim-stable, and free of the characters
that interfere with the merger's textual list surgery (`$` interferes through
the `GetSubstitution` expansion of the replacement string). -/
def cleanSym (s : Str) : Prop :=
  s ≠ [] ∧ jsTrim s = s ∧ (',' : Char) ∉ s ∧ (']' : Char) ∉ s ∧ ('[' : Char) ∉ s ∧
    ('"' : Char) ∉ s ∧ ('\'' : Char) ∉ s ∧ ('$' : Char) ∉ s

instance decCleanSym (s : Str) : Decidable (cleanSym s) :=
  inferInstanceAs (Decidable (s ≠ [] ∧ jsTrim s = s ∧ (',' : Char) ∉ s ∧ (']' : Char) ∉ s
    ∧ ('[' : Char) ∉ s ∧ ('"' : Char) ∉ s ∧ ('\'' : Char) ∉ s ∧ ('$' : Char) ∉ s))

/-- Well-formedness of an index file reachable by the merger: either empty,
or exactly one `__all__` construct whose list body parses to a duplicate-free
list of benign members, preceded by text free of `'['` (so the construct
regex always re-finds this construct). -/
def InitInv (c : Str) : Prop :=
  c = [] ∨ ∃ A inner B, c = A ++ allHdr ++ inner ++ ']' :: B ∧ ('[' : Char) ∉ A ∧
    (']' : Char) ∉ inner ∧ (parseMembers inner).Nodup ∧
    ∀ m ∈ parseMembers inner, cleanSym m

/-! ## The dialect recovered by the restricted reader

Predicates describing the sub-dialect of documents that `parseBasicYaml`
recovers from `generateBasicYaml`'s output, and the normalization the
read-back applies. -/

/-- A scalar that survives a `trim`-based line scanner: trim-stable and free
of line breaks. -/
def lineSafe (s : Str) : Prop := jsTrim s = s ∧ ('\n' : Char) ∉ s

/-- A name the scanner's `split(':')[1]` extraction recovers exactly. -/
def nameSafe (s : Str) : Prop := s ≠ [] ∧ lineSafe s ∧ (':' : Char) ∉ s

/-- Tests carried by a record are absent or empty (the reader never recovers
tests). -/
def noTests (t : Option (List Str)) : Prop := t = none ∨ t = some []

/-- A column record within the recovered dialect: safe name, no description,
no tests. -/
def colOk (c : ColRec) : Prop :=
  nameSafe c.name ∧ (c.description = none ∨ c.description = some []) ∧ noTests c.tests

/-- A model record carries no (nonempty) columns list. -/
def colsEmptyOf (m : ModelRec) : Prop := m.columns = none ∨ m.columns = some []

/-- A model record within the recovered dialect. -/
def modelOk (m : ModelRec) : Prop :=
  nameSafe m.name ∧ (∀ d, m.description = some d → lineSafe d) ∧ noTests m.tests ∧
    (∀ cs, m.columns = some cs → ∀ c ∈ cs, colOk c)

/-- A document within the dialect `generateBasicYaml`/`parseBasicYaml`
round-trips: version 2, dialect-safe models, and — because the scanner never
leaves column scope once entered — only the last model may carry columns. -/
def docOk (doc : SchemaData) : Prop :=
  doc.version = 2 ∧ (∀ m ∈ doc.models, modelOk m) ∧
    ∀ m ∈ doc.models.dropLast, colsEmptyOf m

/-- What the reader recovers of a written column: its name only. -/
def colRecOf (c : ColRec) : ColRec := { name := c.name }

/-- Column records the reader recovers for a written model. -/
def colsOf (m : ModelRec) : List ColRec :=
  match m.columns with
  | some cs => if cs.isEmpty then [] else cs.map colRecOf
  | none => []

/-- Description normalization of the write/read cycle: empty behaves as
absent. -/
def normD : Option Str → Option Str
  | none => none
  | some d => if d.isEmpty then none else some d

/-- The columnless part of the record the reader rebuilds for a model. -/
def entryOf (m : ModelRec) : ModelRec :=
  { name := m.name, description := normD m.description }

/-- The record the reader rebuilds for a written model. -/
def normModel (m : ModelRec) : ModelRec :=
  if (colsOf m).isEmpty then entryOf m else { entryOf m with columns := some (colsOf m) }

/-- The lines `generateBasicYaml` emits for a model of the recovered dialect
(no tests, name-only columns). -/
def modelLines (m : ModelRec) : List Str :=
  [chars "  - name: " ++ m.name]
  ++ (match m.description with
      | some d => if d.isEmpty then [] else [chars "    description: " ++ d]
      | none => [])
  ++ (match m.columns with
      | some cs =>
        if cs.isEmpty then []
        else chars "    columns:" :: cs.map (fun c => chars "      - name: " ++ c.name)
      | none => [])
  ++ [[]]

/-- Decide a guarded universal over an optional value. -/
instance decForallSome {α : Type} {P : α → Prop} [h : ∀ x, Decidable (P x)] :
    (o : Option α) → Decidable (∀ x, o = some x → P x)
  | none => isTrue (fun _ hx => absurd hx (by simp))
  | some a =>
    match h a with
    | isTrue hp => isTrue (fun x hx => by rw [← Option.some.inj hx]; exact hp)
    | isFalse hp => isFalse (fun hall => hp (hall a rfl))

instance decLineSafe (s : Str) : Decidable (lineSafe s) :=
  inferInstanceAs (Decidable (jsTrim s = s ∧ ('\n' : Char) ∉ s))

instance decNameSafe (s : Str) : Decidable (nameSafe s) :=
  inferInstanceAs (Decidable (s ≠ [] ∧ lineSafe s ∧ (':' : Char) ∉ s))

instance decNoTests (t : Option (List Str)) : Decidable (noTests t) :=
  inferInstanceAs (Decidable (t = none ∨ t = some []))

instance decColOk (c : ColRec) : Decidable (colOk c) :=
  inferInstanceAs (Decidable (nameSafe c.name
    ∧ (c.description = none ∨ c.description = some []) ∧ noTests c.tests))

instance decColsEmptyOf (m : ModelRec) : Decidable (colsEmptyOf m) :=
  inferInstanceAs (Decidable (m.columns = none ∨ m.columns = some []))

instance decModelOk (m : ModelRec) : Decidable (modelOk m) :=
  inferInstanceAs (Decidable (nameSafe m.name
    ∧ (∀ d, m.description = some d → lineSafe d) ∧ noTests m.tests
    ∧ (∀ cs, m.columns = some cs → ∀ c ∈ cs, colOk c)))

instance decDocOk (doc : SchemaData) : Decidable (docOk doc) :=
  inferInstanceAs (Decidable (doc.version = 2 ∧ (∀ m ∈ doc.models, modelOk m)
    ∧ ∀ m ∈ doc.models.dropLast, colsEmptyOf m))

end Dataweave

namespace Dataweave

/-! ## Basic lemmas about the string primitives -/

theorem startsWithL_iff {s p : Str} : startsWithL s p = true ↔ p <+: s := by
  induction s generalizing p with
  | nil =>
    cases p with
    | nil => simp [startsWithL]
    | cons q ps => simp [startsWithL]
  | cons c cs ih =>
    cases p with
    | nil => simp [startsWithL]
    | cons q ps =>
      simp only [startsWithL, Bool.and_eq_true, beq_iff_eq, ih, List.cons_prefix_cons]
      tauto

theorem jsIncludes_iff {s sub : Str} : jsIncludes s sub = true ↔ sub <:+: s := by
  induction s with
  | nil =>
    simp [jsIncludes, List.infix_nil, List.isEmpty_iff]
  | cons c cs ih =>
    simp only [jsIncludes, Bool.or_eq_true, startsWithL_iff, ih, List.infix_cons_iff]

theorem jsIncludes_of_middle (x sub y : Str) : jsIncludes (x ++ sub ++ y) sub = true := by
  rw [jsIncludes_iff]; exact List.infix_append x sub y

theorem dropWsL_length (s : Str) : (dropWsL s).length ≤ s.length := by
  induction s with
  | nil => simp [dropWsL]
  | cons c cs ih =>
    by_cases h : isWs c
    · simp only [dropWsL, h, if_true]; exact Nat.le_succ_of_le ih
    · simp [dropWsL, h]

theorem dropWsL_cons_eq_iff {c : Char} {t : Str} :
    dropWsL (c :: t) = c :: t ↔ isWs c = false := by
  constructor
  · intro h
    by_contra hw
    rw [Bool.not_eq_false] at hw
    simp only [dropWsL, hw, if_true] at h
    have := dropWsL_length t
    have := congrArg List.length h
    simp at this
    omega
  · intro h; simp [dropWsL, h]

theorem dropWsR_length (s : Str) : (dropWsR s).length ≤ s.length := by
  unfold dropWsR
  calc (dropWsL s.reverse).reverse.length = (dropWsL s.reverse).length := by simp
    _ ≤ s.reverse.length := dropWsL_length _
    _ = s.length := by simp

theorem dropWsL_eq_self_of_length {s : Str} (h : (dropWsL s).length = s.length) :
    dropWsL s = s := by
  cases s with
  | nil => rfl
  | cons c cs =>
    by_cases hw : isWs c
    · exfalso
      simp only [dropWsL, hw, if_true] at h
      have := dropWsL_length cs
      simp at h
      omega
    · simp [dropWsL, hw]

theorem jsTrim_stable_both {s : Str} (h : jsTrim s = s) :
    dropWsL s = s ∧ dropWsR s = s := by
  have h1 : (dropWsL s).length = s.length := by
    have hle1 := dropWsL_length s
    have hle2 := dropWsR_length (dropWsL s)
    have := congrArg List.length h
    unfold jsTrim at this
    omega
  have h2 : dropWsL s = s := dropWsL_eq_self_of_length h1
  refine ⟨h2, ?_⟩
  unfold jsTrim at h
  rw [h2] at h
  exact h

theorem dropWsL_rev_eq_of_dropWsR {s : Str} (h : dropWsR s = s) :
    dropWsL s.reverse = s.reverse := by
  unfold dropWsR at h
  have := congrArg List.reverse h
  simpa using this

theorem dropWsR_append {name : Str} (hn : dropWsR name = name) (hne : name ≠ []) (x : Str) :
    dropWsR (x ++ name) = x ++ name := by
  unfold dropWsR
  rw [List.reverse_append]
  have hrev : dropWsL name.reverse = name.reverse := dropWsL_rev_eq_of_dropWsR hn
  obtain ⟨c, t, hct⟩ : ∃ c t, name.reverse = c :: t := by
    cases hr : name.reverse with
    | nil => exact absurd (by simpa using congrArg List.reverse hr) hne
    | cons c t => exact ⟨c, t, rfl⟩
  rw [hct] at hrev ⊢
  have hc : isWs c = false := dropWsL_cons_eq_iff.mp hrev
  rw [show c :: t ++ x.reverse = c :: (t ++ x.reverse) by simp,
    dropWsL_cons_eq_iff.mpr hc]
  have hname : name = t.reverse ++ [c] := by
    have := congrArg List.reverse hct
    simpa using this
  rw [hname]
  simp

theorem dropWsL_append_head {x : Str} (hx : dropWsL x = x) (hne : x ≠ []) (y : Str) :
    dropWsL (x ++ y) = x ++ y := by
  cases x with
  | nil => exact absurd rfl hne
  | cons c t =>
    have hc : isWs c = false := dropWsL_cons_eq_iff.mp hx
    rw [show c :: t ++ y = c :: (t ++ y) by simp, dropWsL_cons_eq_iff.mpr hc]

theorem jsTrim_of_stable {s : Str} (h1 : dropWsL s = s) (h2 : dropWsR s = s) :
    jsTrim s = s := by
  unfold jsTrim
  rw [h1, h2]

/-! ## Lemmas about splitting and joining -/

theorem splitOnC_cons_eq (sep c : Char) (cs : Str) :
    splitOnC sep (c :: cs) =
      if c == sep then [] :: splitOnC sep cs
      else
        match splitOnC sep cs with
        | [] => [[c]]
        | h :: t => (c :: h) :: t := rfl

theorem splitOnC_ne_nil (sep : Char) (s : Str) : splitOnC sep s ≠ [] := by
  cases s with
  | nil => exact fun h => absurd h (by simp [splitOnC])
  | cons c cs =>
    rw [splitOnC_cons_eq]
    by_cases h : (c == sep) = true
    · rw [if_pos h]; simp
    · rw [if_neg h]
      cases splitOnC sep cs with
      | nil => simp
      | cons hd tl => simp

theorem beq_false_of_not_mem_head {sep c : Char} {cs : Str} (h : sep ∉ c :: cs) :
    (c == sep) = false :=
  beq_eq_false_iff_ne.mpr (fun hh => h (by rw [← hh]; exact List.mem_cons_self c cs))

theorem splitOnC_of_not_mem {sep : Char} {s : Str} (h : sep ∉ s) :
    splitOnC sep s = [s] := by
  induction s with
  | nil => rfl
  | cons c cs ih =>
    have hc : (c == sep) = false := beq_false_of_not_mem_head h
    have hcs : sep ∉ cs := fun hm => h (List.mem_cons_of_mem _ hm)
    rw [splitOnC_cons_eq, if_neg (by simp [hc]), ih hcs]

theorem splitOnC_append {sep : Char} {x : Str} (h : sep ∉ x) (y : Str) :
    splitOnC sep (x ++ sep :: y) = x :: splitOnC sep y := by
  induction x with
  | nil =>
    rw [List.nil_append, splitOnC_cons_eq, if_pos (by simp)]
  | cons c cs ih =>
    have hc : (c == sep) = false := beq_false_of_not_mem_head h
    have hcs : sep ∉ cs := fun hm => h (List.mem_cons_of_mem _ hm)
    rw [List.cons_append, splitOnC_cons_eq, if_neg (by simp [hc]), ih hcs]

theorem joinSep_cons_cons (sep : Str) (x y : Str) (t : List Str) :
    joinSep sep (x :: y :: t) = x ++ sep ++ joinSep sep (y :: t) := rfl

theorem joinSep_splitOnC (sep : Char) (s : Str) : joinSep [sep] (splitOnC sep s) = s := by
  induction s with
  | nil => rfl
  | cons c cs ih =>
    rw [splitOnC_cons_eq]
    by_cases h : (c == sep) = true
    · have hc : c = sep := by simpa [beq_iff_eq] using h
      rw [if_pos h]
      cases hs : splitOnC sep cs with
      | nil => exact absurd hs (splitOnC_ne_nil sep cs)
      | cons hd tl =>
        rw [hs] at ih
        rw [joinSep_cons_cons, ← ih]
        simp [hc]
    · rw [if_neg h]
      cases hs : splitOnC sep cs with
      | nil => exact absurd hs (splitOnC_ne_nil sep cs)
      | cons hd tl =>
        rw [hs] at ih
        cases tl with
        | nil =>
          show c :: hd = c :: cs
          rw [show joinSep [sep] [hd] = hd from rfl] at ih
          rw [ih]
        | cons a b =>
          show (c :: hd) ++ [sep] ++ joinSep [sep] (a :: b) = c :: cs
          rw [joinSep_cons_cons] at ih
          rw [← ih]
          simp

theorem joinLines_cons (l : Str) (ls : List Str) :
    joinLines (l :: ls) = l ++ '\n' :: joinLines ls := rfl

theorem joinLines_append (a b : List Str) :
    joinLines (a ++ b) = joinLines a ++ joinLines b := by
  induction a with
  | nil => rfl
  | cons l ls ih => simp [joinLines_cons, ih]

theorem splitNl_joinLines {ls : List Str} (h : ∀ l ∈ ls, ('\n' : Char) ∉ l) :
    splitNl (joinLines ls) = ls ++ [[]] := by
  induction ls with
  | nil => rfl
  | cons l rest ih =>
    rw [joinLines_cons]
    unfold splitNl
    rw [splitOnC_append (h l (by simp))]
    have := ih (fun x hx => h x (by simp [hx]))
    unfold splitNl at this
    rw [this]
    simp

theorem joinNl_append {xs ys : List Str} (hx : xs ≠ []) (hy : ys ≠ []) :
    joinNl (xs ++ ys) = joinNl xs ++ '\n' :: joinNl ys := by
  induction xs with
  | nil => exact absurd rfl hx
  | cons a t ih =>
    cases t with
    | nil =>
      cases ys with
      | nil => exact absurd rfl hy
      | cons b u => simp [joinNl, joinSep]
    | cons a2 t2 =>
      have := ih (by simp)
      simp only [joinNl] at this ⊢
      rw [List.cons_append]
      show joinSep ['\n'] (a :: (a2 :: t2 ++ ys)) = _
      have h2 : a2 :: t2 ++ ys = a2 :: (t2 ++ ys) := by simp
      rw [h2]
      simp only [joinSep]
      rw [show a2 :: (t2 ++ ys) = (a2 :: t2) ++ ys by simp, this]
      simp [joinSep]

/-! ## Lemmas about literal stripping and scanning -/

theorem stripLit_eq_some_iff {p s r : Str} : stripLit p s = some r ↔ s = p ++ r := by
  induction p generalizing s with
  | nil => simp [stripLit, eq_comm]
  | cons q ps ih =>
    cases s with
    | nil => simp [stripLit]
    | cons c cs =>
      by_cases h : c == q
      · have : c = q := by simpa [beq_iff_eq] using h
        subst this
        simp [stripLit, ih]
      · have : c ≠ q := by simpa [beq_iff_eq] using h
        simp [stripLit, h, this]

theorem stripLit_append_cases {p A t r : Str} (h : stripLit p (A ++ t) = some r) :
    (∃ A2, A = p ++ A2 ∧ r = A2 ++ t) ∨ (∃ p2, p = A ++ p2 ∧ stripLit p2 t = some r) := by
  have he : A ++ t = p ++ r := stripLit_eq_some_iff.mp h
  rcases List.append_eq_append_iff.mp he with ⟨a2, ha1, ha2⟩ | ⟨c2, hc1, hc2⟩
  · exact Or.inr ⟨a2, ha1, stripLit_eq_some_iff.mpr ha2⟩
  · exact Or.inl ⟨c2, hc1, hc2⟩

theorem scanClose_cons_eq (c : Char) (cs : Str) :
    scanClose (c :: cs) =
      if c == ']' then some ([], cs)
      else (scanClose cs).map (fun p => (c :: p.1, p.2)) := rfl

theorem scanClose_eq_some_iff {s i a : Str} :
    scanClose s = some (i, a) ↔ s = i ++ ']' :: a ∧ (']' : Char) ∉ i := by
  induction s generalizing i a with
  | nil =>
    constructor
    · intro h; exact absurd h (by simp [scanClose])
    · rintro ⟨h, -⟩; exact absurd h.symm (by simp)
  | cons c cs ih =>
    rw [scanClose_cons_eq]
    by_cases h : (c == ']') = true
    · have hc : c = ']' := by simpa [beq_iff_eq] using h
      subst hc
      rw [if_pos h]
      constructor
      · intro he
        obtain ⟨h1, h2⟩ := Prod.mk.injEq .. ▸ Option.some.inj he
        subst h1; subst h2
        simp
      · rintro ⟨he, hni⟩
        cases i with
        | nil =>
          obtain ⟨-, h2⟩ := List.cons.inj he
          rw [h2]
        | cons x xs =>
          have hx : (']' : Char) = x := (List.cons.inj he).1
          exact absurd (hx ▸ List.mem_cons_self x xs) hni
    · have hc : c ≠ ']' := by simpa [beq_iff_eq] using h
      rw [if_neg h]
      constructor
      · intro he
        obtain ⟨⟨i0, a0⟩, hp, heq⟩ := Option.map_eq_some'.mp he
        obtain ⟨h1, h2⟩ := Prod.mk.injEq .. ▸ heq
        obtain ⟨hd, hni⟩ := ih.mp hp
        subst h2
        refine ⟨?_, ?_⟩
        · rw [← h1, hd]; simp
        · rw [← h1]
          simp only [List.mem_cons, not_or]
          exact ⟨fun hh => hc hh.symm, hni⟩
      · rintro ⟨he, hni⟩
        cases i with
        | nil => exact absurd (List.cons.inj he).1 hc
        | cons x xs =>
          obtain ⟨hx, hrest⟩ := List.cons.inj he
          subst hx
          have hni2 : (']' : Char) ∉ xs := fun hm => hni (List.mem_cons_of_mem _ hm)
          rw [ih.mpr ⟨hrest, hni2⟩]
          rfl

theorem scanClose_some_of_shape {i a : Str} (hni : (']' : Char) ∉ i) :
    scanClose (i ++ ']' :: a) = some (i, a) :=
  scanClose_eq_some_iff.mpr ⟨rfl, hni⟩

theorem scanClose_some_close_mem {s i a : Str} (h : scanClose s = some (i, a)) :
    (']' : Char) ∈ s := by
  obtain ⟨hd, -⟩ := scanClose_eq_some_iff.mp h
  subst hd
  simp

theorem dropWsL_decomp (s : Str) :
    ∃ w, s = w ++ dropWsL s ∧ ∀ c ∈ w, isWs c = true := by
  induction s with
  | nil => exact ⟨[], rfl, by simp⟩
  | cons c cs ih =>
    by_cases h : isWs c
    · obtain ⟨w, hw, hws⟩ := ih
      refine ⟨c :: w, ?_, ?_⟩
      · simp only [dropWsL, h, if_true]
        simpa using hw
      · intro x hx
        rcases List.mem_cons.mp hx with rfl | hx
        · exact h
        · exact hws x hx
    · refine ⟨[], ?_, by simp⟩
      simp [dropWsL, h]

theorem not_mem_joinSep {c : Char} {sep : Str} {items : List Str} (hc : c ∉ sep)
    (h : ∀ x ∈ items, c ∉ x) : c ∉ joinSep sep items := by
  induction items with
  | nil => simp [joinSep]
  | cons x t ih =>
    cases t with
    | nil => exact h x (by simp)
    | cons y u =>
      rw [joinSep_cons_cons]
      simp only [List.append_assoc, List.mem_append, not_or]
      exact ⟨h x (by simp), hc, ih (fun z hz => h z (by simp [hz]))⟩

theorem getSubstitution_no_dollar {matched before after : Str} {caps : List Str} :
    ∀ {rep : Str}, ('$' : Char) ∉ rep →
      getSubstitution matched before after caps rep = rep
  | [], _ => rfl
  | c :: rest, h => by
    have hc : ¬c = '$' := fun hh => h (by rw [hh]; exact List.mem_cons_self _ _)
    rw [getSubstitution.eq_def]
    simp only
    rw [if_neg hc,
      getSubstitution_no_dollar (fun hm => h (List.mem_cons_of_mem c hm))]

theorem includes_of_suffix_part {b mid a t imp : Str}
    (hta : t ++ (imp ++ ['\n']) = a) : jsIncludes (b ++ mid ++ a) imp = true := by
  rw [jsIncludes_iff, ← hta]
  exact ⟨b ++ mid ++ t, ['\n'], by simp [List.append_assoc]⟩

theorem dropWsL_subset {s : Str} {c : Char} (h : c ∈ dropWsL s) : c ∈ s := by
  obtain ⟨w, hw, -⟩ := dropWsL_decomp s
  rw [hw]
  exact List.mem_append_right w h

theorem dropWsR_subset {s : Str} {c : Char} (h : c ∈ dropWsR s) : c ∈ s := by
  unfold dropWsR at h
  rw [List.mem_reverse] at h
  have := dropWsL_subset h
  rwa [List.mem_reverse] at this

theorem jsTrim_subset {s : Str} {c : Char} (h : c ∈ jsTrim s) : c ∈ s :=
  dropWsL_subset (dropWsR_subset h)

theorem splitOnC_subset {sep : Char} {s : Str} :
    ∀ {p : Str}, p ∈ splitOnC sep s → ∀ {c : Char}, c ∈ p → c ∈ s := by
  induction s with
  | nil =>
    intro p hp c hc
    rw [List.mem_singleton.mp hp] at hc
    exact absurd hc (by simp)
  | cons x xs ih =>
    intro p hp c hc
    rw [splitOnC_cons_eq] at hp
    by_cases hx : (x == sep) = true
    · rw [if_pos hx] at hp
      rcases List.mem_cons.mp hp with hp | hp
      · rw [hp] at hc
        exact absurd hc (by simp)
      · exact List.mem_cons_of_mem x (ih hp hc)
    · rw [if_neg hx] at hp
      cases hsplit : splitOnC sep xs with
      | nil => exact absurd hsplit (splitOnC_ne_nil sep xs)
      | cons h0 t0 =>
        rw [hsplit] at hp
        simp only at hp
        rcases List.mem_cons.mp hp with hp | hp
        · rw [hp] at hc
          rcases List.mem_cons.mp hc with hc | hc
          · rw [hc]
            exact List.mem_cons_self x xs
          · exact List.mem_cons_of_mem x (ih (by rw [hsplit]; simp) hc)
        · exact List.mem_cons_of_mem x (ih (by rw [hsplit]; simp [hp]) hc)

theorem parseMembers_subset {inner m : Str} (hm : m ∈ parseMembers inner) {c : Char}
    (hc : c ∈ m) : c ∈ inner := by
  unfold parseMembers at hm
  obtain ⟨s, hs, hsm⟩ := List.mem_map.mp hm
  rw [← hsm] at hc
  exact splitOnC_subset hs (jsTrim_subset (List.mem_of_mem_filter hc))

theorem dollar_not_mem_dquote {S : Str} (h : ('$' : Char) ∉ S) :
    ('$' : Char) ∉ dquote S := by
  unfold dquote
  intro hm
  rcases List.mem_cons.mp hm with hm | hm
  · exact absurd hm (by decide)
  · rcases List.mem_append.mp hm with hm | hm
    · exact h hm
    · exact absurd hm (by simp)

theorem dollar_not_mem_allConstructOf {items : List Str}
    (h : ∀ x ∈ items, ('$' : Char) ∉ x) : ('$' : Char) ∉ allConstructOf items := by
  unfold allConstructOf
  intro hm
  rcases List.mem_append.mp hm with hm | hm
  · rcases List.mem_append.mp hm with hm | hm
    · exact absurd hm (by decide)
    · exact not_mem_joinSep (by decide) h hm
  · exact absurd hm (by simp)

/-! ## Smoke checks for the embedding (concrete evaluations) -/

example :
    updateInit [] (chars "test_asset")
      = chars "from .test_asset import test_asset\n\n__all__ = [\"test_asset\"]\n" := by
  decide

example :
    updateInit (updateInit [] (chars "asset1")) (chars "asset2")
      = chars "from .asset1 import asset1\n\n__all__ = [asset1, \"asset2\"]\nfrom .asset2 import asset2\n" := by
  decide

example :
    membersOf (initRun [chars "x", chars "y", chars "a$1"])
      = some [chars "x", chars "y", chars "ax", chars "y"] := by
  decide

example :
    addModelConfig (chars "\x7b\x7b config(a) \x7d\x7d") .view [chars "$&"]
      = chars "\x7b\x7b config(materialized=\x27view\x27, tags=[\x27\x7b\x7b config(a) \x7d\x7d\x27]) \x7d\x7d" := by
  decide

example :
    addModelConfig (chars "\x7b\x7b config(materialized=\x27view\x27) \x7d\x7d\n\nselect * from users")
        .table []
      = chars "\x7b\x7b config(materialized=\x27table\x27) \x7d\x7d\n\nselect * from users" := by
  decide

example :
    addModelConfig (chars "select * from users") .table [chars "test"]
      = chars "\x7b\x7b config(materialized=\x27table\x27, tags=[\x27test\x27]) \x7d\x7d\n\nselect * from users" := by
  decide

/-! ## Smoke checks for the YAML embedding (concrete evaluations) -/

example :
    parseBasicYaml (chars "version: 2\n\nmodels:\n  - name: m\n    description: D\n\n")
      = { version := 2, models := [{ name := chars "m", description := some (chars "D") }] } := by
  decide

example :
    generateBasicYaml { version := 2, models := [{ name := chars "m" }] }
      = chars "version: 2\n\nmodels:\n  - name: m\n\n" := by
  decide

/-! ## C3: the directory convention resolver -/

theorem startsWithL_false_of_head_ne {c d : Char} (h : (c == d) = false) (cs ps : Str) :
    startsWithL (c :: cs) (d :: ps) = false := by
  simp [startsWithL, h]

theorem startsWithL_append_self (p r : Str) : startsWithL (p ++ r) p = true :=
  startsWithL_iff.mpr ⟨r, rfl⟩

/-- C3: the directory convention resolver `getModelDirectory` is a total Lean
function over all strings (so it has no exception behaviour); it maps
`stg_x`, `int_x`, `fct_x`, `dim_x`, `other_x` to `staging`, `intermediate`,
`marts`, `marts`, `staging` respectively; and in general every `stg_`-prefixed
name maps to staging, every `int_`-prefixed name to intermediate, every
`fct_`- or `dim_`-prefixed name to marts, and every other string to staging. -/
theorem getModelDirectory_spec :
    (getModelDirectory (chars "stg_x") = chars "staging"
      ∧ getModelDirectory (chars "int_x") = chars "intermediate"
      ∧ getModelDirectory (chars "fct_x") = chars "marts"
      ∧ getModelDirectory (chars "dim_x") = chars "marts"
      ∧ getModelDirectory (chars "other_x") = chars "staging")
    ∧ (∀ s : Str, startsWithL s (chars "stg_") = true → getModelDirectory s = chars "staging")
    ∧ (∀ s : Str, startsWithL s (chars "int_") = true →
        getModelDirectory s = chars "intermediate")
    ∧ (∀ s : Str, startsWithL s (chars "fct_") = true ∨ startsWithL s (chars "dim_") = true →
        getModelDirectory s = chars "marts")
    ∧ (∀ s : Str, startsWithL s (chars "stg_") = false → startsWithL s (chars "int_") = false →
        startsWithL s (chars "fct_") = false → startsWithL s (chars "dim_") = false →
        getModelDirectory s = chars "staging") := by
  refine ⟨by decide, ?_, ?_, ?_, ?_⟩
  · intro s h
    simp [getModelDirectory, h]
  · intro s h
    obtain ⟨r, rfl⟩ := startsWithL_iff.mp h
    have h1 : startsWithL (chars "int_" ++ r) (chars "stg_") = false := by
      show startsWithL ('i' :: (chars "nt_" ++ r)) ('s' :: chars "tg_") = false
      exact startsWithL_false_of_head_ne (by decide) _ _
    simp [getModelDirectory, h1, h]
  · intro s h
    rcases h with h | h
    · obtain ⟨r, rfl⟩ := startsWithL_iff.mp h
      have h1 : startsWithL (chars "fct_" ++ r) (chars "stg_") = false := by
        show startsWithL ('f' :: (chars "ct_" ++ r)) ('s' :: chars "tg_") = false
        exact startsWithL_false_of_head_ne (by decide) _ _
      have h2 : startsWithL (chars "fct_" ++ r) (chars "int_") = false := by
        show startsWithL ('f' :: (chars "ct_" ++ r)) ('i' :: chars "nt_") = false
        exact startsWithL_false_of_head_ne (by decide) _ _
      simp [getModelDirectory, h1, h2, h]
    · obtain ⟨r, rfl⟩ := startsWithL_iff.mp h
      have h1 : startsWithL (chars "dim_" ++ r) (chars "stg_") = false := by
        show startsWithL ('d' :: (chars "im_" ++ r)) ('s' :: chars "tg_") = false
        exact startsWithL_false_of_head_ne (by decide) _ _
      have h2 : startsWithL (chars "dim_" ++ r) (chars "int_") = false := by
        show startsWithL ('d' :: (chars "im_" ++ r)) ('i' :: chars "nt_") = false
        exact startsWithL_false_of_head_ne (by decide) _ _
      simp [getModelDirectory, h1, h2, h]
  · intro s h1 h2 h3 h4
    simp [getModelDirectory, h1, h2, h3, h4]

/-- Witness for C3's conditional components at concrete inputs. -/
theorem getModelDirectory_spec_witness :
    getModelDirectory (chars "stg_users") = chars "staging"
    ∧ getModelDirectory (chars "int_user_metrics") = chars "intermediate"
    ∧ getModelDirectory (chars "dim_customers") = chars "marts"
    ∧ getModelDirectory (chars "unknown_model") = chars "staging" :=
  ⟨getModelDirectory_spec.2.1 _ (by decide),
   getModelDirectory_spec.2.2.1 _ (by decide),
   getModelDirectory_spec.2.2.2.1 _ (Or.inr (by decide)),
   getModelDirectory_spec.2.2.2.2 _ (by decide) (by decide) (by decide) (by decide)⟩

/-! ## C7: totality of the restricted reader -/

theorem pstep_no_name_invariant {ls : List Str} {st : PSt}
    (hcur : st.cur = none) (hacc : st.acc = [])
    (h : ∀ l ∈ ls, startsWithL (jsTrim l) (chars "- name:") = false) :
    (ls.foldl pstep st).cur = none ∧ (ls.foldl pstep st).acc = [] := by
  induction ls generalizing st with
  | nil => exact ⟨hcur, hacc⟩
  | cons l rest ih =>
    have hl : startsWithL (jsTrim l) (chars "- name:") = false := h l (by simp)
    have hstep : (pstep st l).cur = none ∧ (pstep st l).acc = [] := by
      unfold pstep
      simp only [hl, Bool.false_and, Bool.false_eq_true, if_false, hcur, Option.isSome_none,
        Bool.and_false]
      by_cases hc : jsTrim l == chars "columns:"
      · simp [hc, hcur, hacc]
      · simp [hc, hcur, hacc]
    exact ih hstep.1 hstep.2 (fun x hx => h x (by simp [hx]))

/-- C7: `parseBasicYaml` is a total function: for every input string it
returns a version-2 document (with some, possibly empty, list of models), and
when no line of the input is recognized as starting a model record the result
is exactly the empty document `{version := 2, models := []}` — no exception
escapes the restricted read path. -/
theorem parseBasicYaml_total_spec :
    (∀ s : Str, (parseBasicYaml s).version = 2)
    ∧ (∀ s : Str, (∀ l ∈ splitNl s, startsWithL (jsTrim l) (chars "- name:") = false) →
        parseBasicYaml s = { version := 2, models := [] }) := by
  constructor
  · intro s; rfl
  · intro s h
    unfold parseBasicYaml
    obtain ⟨hcur, hacc⟩ :=
      @pstep_no_name_invariant (splitNl s) { cur := none, cols := [], inCols := false, acc := [] }
        rfl rfl h
    simp only [flushModel, hcur, hacc]

/-- Witness for C7 at concrete inputs. -/
theorem parseBasicYaml_total_spec_witness :
    (parseBasicYaml (chars "hello")).version = 2
    ∧ parseBasicYaml (chars "hello\nworld: 3\n# junk")
        = { version := 2, models := [] } :=
  ⟨parseBasicYaml_total_spec.1 _,
   parseBasicYaml_total_spec.2 _ (by decide)⟩

/-! ## Counterexamples to the claims the code falsifies -/

/-- C1 counterexample: for the symbol name `a]` and an index file reading
`__all__ = [`, the second call rewrites the file again — the content after the
second call differs from the content after the first call, because the
`__all__`-construct rewrite of the first call destroys the freshly appended
line holding the import. -/
theorem updateInit_not_idempotent_cex :
    updateInit (updateInit (chars "__all__ = [") (chars "a]")) (chars "a]")
      ≠ updateInit (chars "__all__ = [") (chars "a]") := by
  decide

/-- C9 counterexample: registering the single symbol name `a, a` in a fresh
index file yields an exported-symbols construct whose parsed member list
contains the member `a` twice. -/
theorem updateInit_duplicate_member_cex :
    membersOf (updateInit [] (chars "a, a")) = some [chars "a", chars "a"]
    ∧ ¬ [chars "a", chars "a"].Nodup := by
  constructor
  · decide
  · decide

/-- C10 counterexample: a previously existing member containing `$&` is not
re-emitted bare — the `GetSubstitution` expansion of the string replacement
splices the whole matched construct into it, so the written construct differs
from the bare re-emission the claim describes. -/
theorem updateInit_rewrite_dollar_cex :
    updateInit (chars "__all__ = [a$&]") (chars "b")
      = chars "__all__ = [a__all__ = [a$&], \"b\"]from .b import b\n"
    ∧ updateInit (chars "__all__ = [a$&]") (chars "b")
      ≠ allConstructOf
          ((parseMembers (chars "a$&")).filter (fun s => !s.isEmpty)
            ++ [dquote (chars "b")])
        ++ chars "from .b import b\n" := by
  constructor
  · decide
  · decide

/-- C2 counterexample: a document whose only model has a documented column
does not round-trip: the reader attributes the column's description to the
model, so the second serialization differs from the first. -/
theorem yaml_roundtrip_cex :
    generateBasicYaml (parseBasicYaml (generateBasicYaml
      ⟨2, [⟨chars "m", none, none, some [⟨chars "id", some (chars "D"), none⟩]⟩]⟩))
    ≠ generateBasicYaml
      ⟨2, [⟨chars "m", none, none, some [⟨chars "id", some (chars "D"), none⟩]⟩]⟩ := by
  decide

/-- C5 counterexample: a schema file holding exactly one model `a` carrying
the test `unique` loses that test when the distinct model `b` is upserted —
`A`'s fields are not all unchanged. -/
theorem updateSchema_drops_tests_cex :
    jsIncludes (generateBasicYaml ⟨2, [⟨chars "a", none, some [chars "unique"], none⟩]⟩)
      (chars "unique") = true
    ∧ jsIncludes (updateSchemaContent
        (some (generateBasicYaml ⟨2, [⟨chars "a", none, some [chars "unique"], none⟩]⟩))
        (chars "b") [] [] [])
      (chars "unique") = false := by
  constructor
  · decide
  · decide

/-- C6 counterexample: a schema file whose model `m` documents column `id` as
`Primary key` loses that column description when `m` is upserted with only a
new model description and no columns. -/
theorem updateSchema_drops_column_doc_cex :
    jsIncludes (generateBasicYaml
        ⟨2, [⟨chars "m", none, none,
          some [⟨chars "id", some (chars "Primary key"), none⟩]⟩]⟩)
      (chars "Primary key") = true
    ∧ jsIncludes (updateSchemaContent
        (some (generateBasicYaml
          ⟨2, [⟨chars "m", none, none,
            some [⟨chars "id", some (chars "Primary key"), none⟩]⟩]⟩))
        (chars "m") (chars "New description") [] [])
      (chars "Primary key") = false := by
  constructor
  · decide
  · decide

/-- C8 counterexample: `generateModel` with the empty artifact name is not
rejected: it proceeds to write the model file `.sql` into the staging
directory and to write the schema file. -/
theorem generateModel_empty_name_cex :
    (generateModelWrites { name := [] } none).map (fun w => (w.1, w.2.1))
      = [(chars "staging", chars ".sql"), (chars "staging", chars "schema.yml")] := by
  decide

/-- C4 counterexample: (i) on caller-supplied text containing two
configuration headers, the renderer replaces only the first, so the output
does not contain exactly one header; (ii) on text containing the substring
`{{ config(` but no complete header, the renderer neither replaces nor
inserts anything, so the output contains no header at all. -/
theorem addModelConfig_cex :
    (findHeader (chars "\x7b\x7b config(a) \x7d\x7dX\x7b\x7b config(b) \x7d\x7d")).isSome = true
    ∧ headerOnce (addModelConfig
        (chars "\x7b\x7b config(a) \x7d\x7dX\x7b\x7b config(b) \x7d\x7d") .view []) = false
    ∧ findHeader (chars "\x7b\x7b config(") = none
    ∧ addModelConfig (chars "\x7b\x7b config(") .view [] = chars "\x7b\x7b config("
    ∧ headerOnce (addModelConfig (chars "\x7b\x7b config(") .view []) = false := by
  refine ⟨by decide, by decide, by decide, by decide, by decide⟩

/-! ## C4 (amended): header replace / insert

Lemmas about the configuration-header matcher: computation of a match at a
well-formed header, decomposition of any match, and the two no-match
transport lemmas (for text before a replaced header, and for newline-ended
text before an inserted header). -/

theorem takeNonBrace_cons_eq (c : Char) (cs : Str) :
    takeNonBrace (c :: cs) =
      if c == '}' then ([], c :: cs)
      else ((c :: (takeNonBrace cs).1, (takeNonBrace cs).2)) := rfl

theorem takeNonBrace_no_brace {x : Str} (h : ('}' : Char) ∉ x) :
    takeNonBrace x = (x, []) := by
  induction x with
  | nil => rfl
  | cons c cs ih =>
    have hc : (c == '}') = false :=
      beq_eq_false_iff_ne.mpr (fun hh => h (hh ▸ List.mem_cons_self c cs))
    rw [takeNonBrace_cons_eq, if_neg (by simp [hc]),
      ih (fun hm => h (List.mem_cons_of_mem _ hm))]

theorem takeNonBrace_append_brace {x y : Str} (h : ('}' : Char) ∉ x) :
    takeNonBrace (x ++ '}' :: y) = (x, '}' :: y) := by
  induction x with
  | nil => rfl
  | cons c cs ih =>
    have hc : (c == '}') = false :=
      beq_eq_false_iff_ne.mpr (fun hh => h (hh ▸ List.mem_cons_self c cs))
    rw [List.cons_append, takeNonBrace_cons_eq, if_neg (by simp [hc]),
      ih (fun hm => h (List.mem_cons_of_mem _ hm))]

theorem takeNonBrace_decomp (s : Str) :
    s = (takeNonBrace s).1 ++ (takeNonBrace s).2 ∧ ('}' : Char) ∉ (takeNonBrace s).1 ∧
      ((takeNonBrace s).2 = [] ∨ ∃ t, (takeNonBrace s).2 = '}' :: t) := by
  induction s with
  | nil => exact ⟨rfl, by simp [takeNonBrace], Or.inl rfl⟩
  | cons c cs ih =>
    rw [takeNonBrace_cons_eq]
    by_cases hc : (c == '}') = true
    · rw [if_pos hc]
      exact ⟨rfl, by simp, Or.inr ⟨cs, by simp [beq_iff_eq.mp hc]⟩⟩
    · rw [if_neg hc]
      refine ⟨by simpa using ih.1, ?_, ih.2.2⟩
      simp only [List.mem_cons, not_or]
      exact ⟨fun hh => hc (by simp [← hh]), ih.2.1⟩

theorem takeNonBrace_append_of_snd_ne {x z t1 t2 : Str} (h : takeNonBrace x = (t1, t2))
    (ht : t2 ≠ []) : takeNonBrace (x ++ z) = (t1, t2 ++ z) := by
  induction x generalizing t1 with
  | nil =>
    exact absurd ((congrArg Prod.snd h).symm : t2 = []) ht
  | cons c cs ih =>
    rw [takeNonBrace_cons_eq] at h
    by_cases hc : (c == '}') = true
    · rw [if_pos hc] at h
      have h1 := congrArg Prod.fst h
      have h2 := congrArg Prod.snd h
      simp only at h1 h2
      rw [List.cons_append, takeNonBrace_cons_eq, if_pos hc, ← h1, ← h2]
      simp
    · rw [if_neg hc] at h
      have h1 := congrArg Prod.fst h
      have h2 := congrArg Prod.snd h
      simp only at h1 h2
      have harg : takeNonBrace cs = ((takeNonBrace cs).1, t2) := by rw [← h2]
      have hrec := ih harg
      rw [List.cons_append, takeNonBrace_cons_eq, if_neg hc, hrec, ← h1]

theorem endsParenSpace_eq_some_iff {run i : Str} :
    endsParenSpace run = some i ↔ run = i ++ [')', ' '] ∧ i ≠ [] := by
  constructor
  · intro h
    unfold endsParenSpace at h
    split at h
    next c t heq =>
      have hi : (c :: t).reverse = i := Option.some.inj h
      have hrun : run = ((c :: t).reverse) ++ [')', ' '] := by
        have := congrArg List.reverse heq
        simpa [List.reverse_cons, List.append_assoc] using this
      exact ⟨hi ▸ hrun, hi ▸ (by simp)⟩
    next => exact absurd h (by simp)
  · rintro ⟨rfl, hne⟩
    obtain ⟨c, t, hct⟩ : ∃ c t, i.reverse = c :: t := by
      cases hr : i.reverse with
      | nil => exact absurd (by simpa using congrArg List.reverse hr) hne
      | cons c t => exact ⟨c, t, rfl⟩
    unfold endsParenSpace
    rw [show (i ++ [')', ' ']).reverse = ' ' :: ')' :: i.reverse from by simp, hct]
    simp only
    rw [← hct]
    simp

theorem matchHdrAt_header {ci after : Str} (hci : ('}' : Char) ∉ ci) (hne : ci ≠ []) :
    matchHdrAt (hdrText ci ++ after) = some (ci, after) := by
  unfold matchHdrAt
  rw [show hdrText ci ++ after = hdrLit ++ ((ci ++ [')', ' ']) ++ '}' :: '}' :: after)
      from by simp [hdrText, List.append_assoc],
    stripLit_eq_some_iff.mpr rfl]
  simp only
  have hnb : ('}' : Char) ∉ ci ++ [')', ' '] := by
    intro hm
    rcases List.mem_append.mp hm with hm | hm
    · exact hci hm
    · exact absurd hm (by decide)
  rw [takeNonBrace_append_brace hnb]
  simp only
  rw [endsParenSpace_eq_some_iff.mpr ⟨rfl, hne⟩]

theorem matchHdrAt_some_decomp {s i a : Str} (h : matchHdrAt s = some (i, a)) :
    s = hdrText i ++ a ∧ ('}' : Char) ∉ i ∧ i ≠ [] := by
  unfold matchHdrAt at h
  split at h
  · exact absurd h (by simp)
  next r hstrip =>
    have hs : s = hdrLit ++ r := stripLit_eq_some_iff.mp hstrip
    obtain ⟨hd1, hd2, hd3⟩ := takeNonBrace_decomp r
    simp only at h
    split at h
    next after heq =>
      split at h
      next inner hins =>
        obtain ⟨hrun, hrune⟩ := endsParenSpace_eq_some_iff.mp hins
        have hp := Option.some.inj h
        have hi : inner = i := congrArg Prod.fst hp
        have ha : after = a := congrArg Prod.snd hp
        subst hi
        refine ⟨?_, ?_, hrune⟩
        · rw [hs, hd1, heq, hrun, ha]
          simp [hdrText, List.append_assoc]
        · intro hm
          exact hd2 (by rw [hrun]; exact List.mem_append_left _ hm)
      next => exact absurd h (by simp)
    next => exact absurd h (by simp)

theorem findHeader_cons_eq (c : Char) (cs : Str) :
    findHeader (c :: cs) =
      match matchHdrAt (c :: cs) with
      | some (i, a) => some ([], i, a)
      | none => (findHeader cs).map (fun r => (c :: r.1, r.2.1, r.2.2)) := rfl

theorem findHeader_some_decomp {s b i a : Str} (h : findHeader s = some (b, i, a)) :
    s = b ++ hdrText i ++ a ∧ ('}' : Char) ∉ i ∧ i ≠ [] := by
  induction s generalizing b with
  | nil => exact absurd h (by simp [findHeader])
  | cons c cs ih =>
    rw [findHeader_cons_eq] at h
    cases hm : matchHdrAt (c :: cs) with
    | some p =>
      rw [hm] at h
      obtain ⟨i0, a0⟩ := p
      simp only at h
      obtain ⟨hb, hi, ha⟩ : ([] : Str) = b ∧ i0 = i ∧ a0 = a := by
        have := Option.some.inj h
        exact ⟨congrArg (fun x => x.1) this, congrArg (fun x => x.2.1) this,
          congrArg (fun x => x.2.2) this⟩
      subst hi; subst ha
      obtain ⟨hdec, hni, hne⟩ := matchHdrAt_some_decomp hm
      exact ⟨by rw [← hb, List.nil_append]; exact hdec, hni, hne⟩
    | none =>
      rw [hm] at h
      cases hf : findHeader cs with
      | none => rw [hf] at h; exact absurd h (by simp)
      | some r =>
        rw [hf] at h
        obtain ⟨b0, i0, a0⟩ := r
        simp only at h
        obtain ⟨hb, hi, ha⟩ : c :: b0 = b ∧ i0 = i ∧ a0 = a := by
          have := Option.some.inj h
          exact ⟨congrArg (fun x => x.1) this, congrArg (fun x => x.2.1) this,
            congrArg (fun x => x.2.2) this⟩
        subst hi; subst ha
        obtain ⟨hdec, hni, hne⟩ := ih hf
        exact ⟨by rw [← hb, hdec]; simp, hni, hne⟩

theorem findHeader_includes {s b i a : Str} (h : findHeader s = some (b, i, a)) :
    jsIncludes s hdrLit = true := by
  obtain ⟨hdec, -, -⟩ := findHeader_some_decomp h
  rw [jsIncludes_iff, hdec]
  exact ⟨b, i ++ [')', ' ', '}', '}'] ++ a, by simp [hdrText, List.append_assoc]⟩

theorem findHeader_none_of_not_includes {s : Str} (h : jsIncludes s hdrLit = false) :
    findHeader s = none := by
  induction s with
  | nil => rfl
  | cons c cs ih =>
    have hsplit : startsWithL (c :: cs) hdrLit = false ∧ jsIncludes cs hdrLit = false := by
      have : (startsWithL (c :: cs) hdrLit || jsIncludes cs hdrLit) = false := h
      exact ⟨by simpa using (Bool.or_eq_false_iff.mp this).1,
        (Bool.or_eq_false_iff.mp this).2⟩
    rw [findHeader_cons_eq]
    cases hm : matchHdrAt (c :: cs) with
    | some p =>
      obtain ⟨i0, a0⟩ := p
      obtain ⟨hdec, -, -⟩ := matchHdrAt_some_decomp hm
      have hsw : startsWithL (c :: cs) hdrLit = true := by
        rw [hdec, show hdrText i0 ++ a0 = hdrLit ++ (i0 ++ [')', ' ', '}', '}'] ++ a0)
          from by simp [hdrText, List.append_assoc]]
        exact startsWithL_append_self _ _
      exact absurd hsplit.1 (by rw [hsw]; simp)
    | none =>
      rw [ih hsplit.2]
      rfl

theorem hdr_append_ne_nil (x y : Str) : x ++ hdrLit ++ y ≠ [] := by
  intro hc
  have hlen := congrArg List.length hc
  rw [List.length_append, List.length_append,
    show (hdrLit.length : Nat) = 10 from rfl] at hlen
  simp only [List.length_nil] at hlen
  omega

theorem findHeader_of_match {s i a : Str} (h : matchHdrAt s = some (i, a)) (hs : s ≠ []) :
    findHeader s = some ([], i, a) := by
  cases s with
  | nil => exact absurd rfl hs
  | cons c cs => rw [findHeader_cons_eq, h]

theorem configLine_eq_hdrText (m : Materialization) (tags : List Str) :
    configLine m tags = hdrText (configInner m tags) := rfl

theorem matchHdrAt_none_transport {w i i2 a : Str} (hw : w ≠ [])
    (hi : ('}' : Char) ∉ i)
    (h : matchHdrAt (w ++ hdrText i ++ a) = none) :
    matchHdrAt (w ++ hdrText i2 ++ a) = none := by
  cases hstrip : stripLit hdrLit (w ++ hdrText i2 ++ a) with
  | none =>
    unfold matchHdrAt
    rw [hstrip]
  | some r2 =>
    have hstrip2 : stripLit hdrLit (w ++ (hdrText i2 ++ a)) = some r2 := by
      rw [← List.append_assoc]; exact hstrip
    rcases stripLit_append_cases hstrip2 with ⟨w2, hww, hr⟩ | ⟨p2, hp2, hsp⟩
    · -- w = hdrLit ++ w2
      have hstripi : stripLit hdrLit (w ++ hdrText i ++ a)
          = some (w2 ++ (hdrText i ++ a)) := by
        rw [hww, List.append_assoc, List.append_assoc]
        exact stripLit_eq_some_iff.mpr rfl
      by_cases hbw : ('}' : Char) ∈ w2
      · -- the brace in w2 blocks both versions identically
        obtain ⟨hd1, hd2, hd3⟩ := takeNonBrace_decomp w2
        have ht2ne : (takeNonBrace w2).2 ≠ [] := by
          rcases hd3 with he | ⟨t, ht⟩
          · exfalso
            rw [hd1, he, List.append_nil] at hbw
            exact hd2 hbw
          · rw [ht]; simp
        obtain ⟨t, ht⟩ : ∃ t, (takeNonBrace w2).2 = '}' :: t := by
          rcases hd3 with he | h3
          · exact absurd he ht2ne
          · exact h3
        have htb2 : takeNonBrace (w2 ++ (hdrText i2 ++ a))
            = ((takeNonBrace w2).1, (takeNonBrace w2).2 ++ (hdrText i2 ++ a)) :=
          takeNonBrace_append_of_snd_ne rfl ht2ne
        have htbi : takeNonBrace (w2 ++ (hdrText i ++ a))
            = ((takeNonBrace w2).1, (takeNonBrace w2).2 ++ (hdrText i ++ a)) :=
          takeNonBrace_append_of_snd_ne rfl ht2ne
        unfold matchHdrAt at h ⊢
        rw [hstrip] at *
        rw [hstripi] at h
        simp only at h ⊢
        rw [hr, htb2, ht] at *
        rw [htbi, ht] at h
        simp only [List.cons_append] at h ⊢
        cases t with
        | nil =>
          rw [List.nil_append,
            show hdrText i2 ++ a
              = '{' :: (((chars "\x7b config(" ++ i2) ++ [')', ' ', '}', '}']) ++ a)
            from rfl]
          split
          next heq =>
            exact absurd ((List.cons.inj (List.cons.inj heq).2).1) (by decide)
          next => rfl
        | cons c2 t3 =>
          by_cases hc2 : c2 = '}'
          · subst hc2
            simp only [List.cons_append] at h ⊢
            cases hps : endsParenSpace (takeNonBrace w2).1 with
            | some inner =>
              rw [hps] at h
              exact absurd h (by simp)
            | none => rfl
          · split
            next heq =>
              exact absurd ((List.cons.inj (List.cons.inj heq).2).1) hc2
            next => rfl
      · -- no brace in w2: the original match would have succeeded
        exfalso
        have hnb : ('}' : Char) ∉ (w2 ++ hdrLit ++ i) ++ [')', ' '] := by
          intro hm
          rcases List.mem_append.mp hm with hm | hm
          · rcases List.mem_append.mp hm with hm | hm
            · rcases List.mem_append.mp hm with hm | hm
              · exact hbw hm
              · exact absurd hm (by decide)
            · exact hi hm
          · exact absurd hm (by decide)
        have htb : takeNonBrace (w2 ++ (hdrText i ++ a))
            = ((w2 ++ hdrLit ++ i) ++ [')', ' '], '}' :: '}' :: a) := by
          rw [show w2 ++ (hdrText i ++ a)
              = ((w2 ++ hdrLit ++ i) ++ [')', ' ']) ++ '}' :: '}' :: a from by
            simp [hdrText, List.append_assoc]]
          exact takeNonBrace_append_brace hnb
        have hsome : matchHdrAt (w ++ hdrText i ++ a)
            = some (w2 ++ hdrLit ++ i, a) := by
          unfold matchHdrAt
          rw [hstripi]
          simp only
          rw [htb]
          simp only
          rw [endsParenSpace_eq_some_iff.mpr ⟨rfl, hdr_append_ne_nil w2 i⟩]
        rw [hsome] at h
        exact absurd h (by simp)
    · -- the literal would have to resume inside itself: impossible
      have hmem : p2 ∈ hdrLit.tails := (List.mem_tails _ _).mpr ⟨w, hp2.symm⟩
      rw [show hdrLit.tails
          = [chars "\x7b\x7b config(", chars "\x7b config(", chars " config(",
             chars "config(", chars "onfig(", chars "nfig(", chars "fig(", chars "ig(",
             chars "g(", chars "(", []] from by decide] at hmem
      fin_cases hmem
      · -- p2 = the whole literal forces w = []
        exfalso
        have hlen := congrArg List.length hp2
        rw [List.length_append] at hlen
        rw [show (hdrLit.length : Nat) = 10 from rfl,
          show ((chars "\x7b\x7b config(").length : Nat) = 10 from rfl] at hlen
        exact hw (List.length_eq_zero.mp (by omega))
      · exfalso
        rw [show stripLit (chars "\x7b config(") (hdrText i2 ++ a) = none from rfl] at hsp
        exact absurd hsp (by simp)
      · exfalso
        rw [show stripLit (chars " config(") (hdrText i2 ++ a) = none from rfl] at hsp
        exact absurd hsp (by simp)
      · exfalso
        rw [show stripLit (chars "config(") (hdrText i2 ++ a) = none from rfl] at hsp
        exact absurd hsp (by simp)
      · exfalso
        rw [show stripLit (chars "onfig(") (hdrText i2 ++ a) = none from rfl] at hsp
        exact absurd hsp (by simp)
      · exfalso
        rw [show stripLit (chars "nfig(") (hdrText i2 ++ a) = none from rfl] at hsp
        exact absurd hsp (by simp)
      · exfalso
        rw [show stripLit (chars "fig(") (hdrText i2 ++ a) = none from rfl] at hsp
        exact absurd hsp (by simp)
      · exfalso
        rw [show stripLit (chars "ig(") (hdrText i2 ++ a) = none from rfl] at hsp
        exact absurd hsp (by simp)
      · exfalso
        rw [show stripLit (chars "g(") (hdrText i2 ++ a) = none from rfl] at hsp
        exact absurd hsp (by simp)
      · exfalso
        rw [show stripLit (chars "(") (hdrText i2 ++ a) = none from rfl] at hsp
        exact absurd hsp (by simp)
      · -- p2 = []: w is the whole literal, and the original match succeeds
        exfalso
        have hweq : w = hdrLit := by simpa using hp2.symm
        have hstripi : stripLit hdrLit (w ++ hdrText i ++ a)
            = some (hdrText i ++ a) := by
          rw [hweq, List.append_assoc]
          exact stripLit_eq_some_iff.mpr rfl
        have hnb : ('}' : Char) ∉ (hdrLit ++ i) ++ [')', ' '] := by
          intro hm
          rcases List.mem_append.mp hm with hm | hm
          · rcases List.mem_append.mp hm with hm | hm
            · exact absurd hm (by decide)
            · exact hi hm
          · exact absurd hm (by decide)
        have htb : takeNonBrace (hdrText i ++ a)
            = ((hdrLit ++ i) ++ [')', ' '], '}' :: '}' :: a) := by
          rw [show hdrText i ++ a
              = ((hdrLit ++ i) ++ [')', ' ']) ++ '}' :: '}' :: a from by
            simp [hdrText, List.append_assoc]]
          exact takeNonBrace_append_brace hnb
        have hsome : matchHdrAt (w ++ hdrText i ++ a) = some (hdrLit ++ i, a) := by
          unfold matchHdrAt
          rw [hstripi]
          simp only
          rw [htb]
          simp only
          rw [endsParenSpace_eq_some_iff.mpr ⟨rfl, by simpa using hdr_append_ne_nil [] i⟩]
        rw [hsome] at h
        exact absurd h (by simp)

theorem findHeader_map_inj {s : Str} {c : Char} {b i a : Str}
    (h : (findHeader s).map (fun r => (c :: r.1, r.2.1, r.2.2)) = some (c :: b, i, a)) :
    findHeader s = some (b, i, a) := by
  cases hf : findHeader s with
  | none => rw [hf] at h; exact absurd h (by simp)
  | some r =>
    rw [hf] at h
    obtain ⟨b0, i0, a0⟩ := r
    simp only [Option.map_some'] at h
    have hp := Option.some.inj h
    have h1 : c :: b0 = c :: b := congrArg (fun x => x.1) hp
    have h2 : i0 = i := congrArg (fun x => x.2.1) hp
    have h3 : a0 = a := congrArg (fun x => x.2.2) hp
    rw [(List.cons.inj h1).2, h2, h3]

theorem findHeader_transport {b i a i2 : Str}
    (h : findHeader (b ++ hdrText i ++ a) = some (b, i, a))
    (hi2 : ('}' : Char) ∉ i2) (hne2 : i2 ≠ []) :
    findHeader (b ++ hdrText i2 ++ a) = some (b, i2, a) := by
  obtain ⟨-, hi, hne⟩ := findHeader_some_decomp h
  induction b with
  | nil =>
    rw [List.nil_append]
    exact findHeader_of_match (matchHdrAt_header hi2 hne2) (by
      intro hc
      exact hdr_append_ne_nil [] (i2 ++ [')', ' ', '}', '}'] ++ a)
        (by simpa [hdrText, List.append_assoc] using hc))
  | cons c b2 ih =>
    have hsh : (c :: b2) ++ hdrText i ++ a = c :: (b2 ++ hdrText i ++ a) := by simp
    rw [hsh, findHeader_cons_eq] at h
    cases hm : matchHdrAt (c :: (b2 ++ hdrText i ++ a)) with
    | some p =>
      rw [hm] at h
      obtain ⟨i0, a0⟩ := p
      simp only at h
      have : ([] : Str) = c :: b2 := congrArg (fun x => x.1) (Option.some.inj h)
      exact absurd this (by simp)
    | none =>
      rw [hm] at h
      have hrec0 : findHeader (b2 ++ hdrText i ++ a) = some (b2, i, a) :=
        findHeader_map_inj h
      have hrec := ih hrec0
      have hnone2 : matchHdrAt (c :: (b2 ++ hdrText i2 ++ a)) = none := by
        have := @matchHdrAt_none_transport (c :: b2) i i2 a
          (by simp) hi (by rw [show (c :: b2) ++ hdrText i ++ a
            = c :: (b2 ++ hdrText i ++ a) from by simp]; exact hm)
        rw [show (c :: b2) ++ hdrText i2 ++ a = c :: (b2 ++ hdrText i2 ++ a) from by simp]
          at this
        exact this
      rw [show (c :: b2) ++ hdrText i2 ++ a = c :: (b2 ++ hdrText i2 ++ a) from by simp,
        findHeader_cons_eq, hnone2]
      simp only
      rw [hrec]
      rfl

theorem jsIncludes_cons_head_ne {c : Char} {x sub : Str} {d : Char} {ds : Str}
    (hsub : sub = d :: ds) (hcd : (c == d) = false) :
    jsIncludes (c :: x) sub = jsIncludes x sub := by
  subst hsub
  show (startsWithL (c :: x) (d :: ds) || jsIncludes x (d :: ds)) = _
  rw [startsWithL_false_of_head_ne hcd]
  simp

theorem jsIncludes_false_of_infix {y s t : Str} (hy : y <:+: s)
    (h : jsIncludes s t = false) : jsIncludes y t = false := by
  cases hincl : jsIncludes y t with
  | false => rfl
  | true =>
    exfalso
    have : t <:+: s := (jsIncludes_iff.mp hincl).trans hy
    rw [← jsIncludes_iff] at this
    rw [this] at h
    exact absurd h (by simp)

theorem append_singleton_inj {a b : Str} {x y : Char} (h : a ++ [x] = b ++ [y]) :
    a = b ∧ x = y := by
  have hr := congrArg List.reverse h
  simp only [List.reverse_append, List.reverse_cons, List.reverse_nil, List.nil_append,
    List.singleton_append] at hr
  obtain ⟨h1, h2⟩ := List.cons.inj hr
  exact ⟨by simpa using congrArg List.reverse h2, h1⟩

theorem infix_of_infix_append_singleton {t x : Str} {c : Char} (h : t <:+: x ++ [c])
    (hc : c ∉ t) (hne : t ≠ []) : t <:+: x := by
  obtain ⟨u, v, huv⟩ := h
  rcases List.eq_nil_or_concat v with rfl | ⟨v0, vl, rfl⟩
  · rw [List.append_nil] at huv
    obtain ⟨t0, tl, rfl⟩ : ∃ t0 tl, t = t0 ++ [tl] := by
      rcases List.eq_nil_or_concat t with rfl | ⟨t0, tl, rfl⟩
      · exact absurd rfl hne
      · exact ⟨t0, tl, by simp⟩
    rw [← List.append_assoc] at huv
    obtain ⟨-, h2⟩ := append_singleton_inj huv.symm
    exact absurd (h2 ▸ (by simp : tl ∈ t0 ++ [tl])) (h2 ▸ hc)
  · rw [List.concat_eq_append] at huv
    rw [show u ++ t ++ (v0 ++ [vl]) = (u ++ t ++ v0) ++ [vl] from by simp] at huv
    obtain ⟨h1, -⟩ := append_singleton_inj huv.symm
    exact ⟨u, v0, h1.symm⟩

theorem findHeader_shift_nl {pre y : Str} (hninc : jsIncludes pre hdrLit = false)
    (hnl : pre = [] ∨ ∃ p0, pre = p0 ++ ['\n']) :
    findHeader (pre ++ y) = (findHeader y).map (fun r => (pre ++ r.1, r.2.1, r.2.2)) := by
  induction pre with
  | nil =>
    cases hf : findHeader y with
    | none => simp [hf]
    | some r => simp [hf]
  | cons c pre2 ih =>
    have hnl2 : pre2 = [] ∨ ∃ p0, pre2 = p0 ++ ['\n'] := by
      rcases hnl with he | ⟨p0, hp⟩
      · exact absurd he (by simp)
      · cases p0 with
        | nil => exact Or.inl (by simpa using (List.cons.inj hp).2)
        | cons d p1 => exact Or.inr ⟨p1, (List.cons.inj hp).2⟩
    have hninc2 : jsIncludes pre2 hdrLit = false := by
      have : (startsWithL (c :: pre2) hdrLit || jsIncludes pre2 hdrLit) = false := hninc
      exact (Bool.or_eq_false_iff.mp this).2
    have hnm : matchHdrAt (c :: (pre2 ++ y)) = none := by
      cases hm : matchHdrAt (c :: (pre2 ++ y)) with
      | none => rfl
      | some p =>
        exfalso
        obtain ⟨i0, a0⟩ := p
        obtain ⟨hdec, -, -⟩ := matchHdrAt_some_decomp hm
        have hstrip : stripLit hdrLit ((c :: pre2) ++ y) = some (i0 ++ [')', ' ', '}', '}'] ++ a0) := by
          rw [show (c :: pre2) ++ y = c :: (pre2 ++ y) from by simp, hdec]
          exact stripLit_eq_some_iff.mpr (by simp [hdrText, List.append_assoc])
        rcases stripLit_append_cases hstrip with ⟨A2, hA2, -⟩ | ⟨p2, hp2, -⟩
        · have hsw : startsWithL (c :: pre2) hdrLit = true := by
            rw [hA2]
            exact startsWithL_append_self _ _
          have : (startsWithL (c :: pre2) hdrLit || jsIncludes pre2 hdrLit) = false := hninc
          rw [hsw] at this
          exact absurd this (by simp)
        · -- c :: pre2 is a nonempty prefix of the literal, yet ends with '\n'
          rcases hnl with he | ⟨p0, hp⟩
          · exact absurd he (by simp)
          · have hlast : ('\n' : Char) ∈ c :: pre2 := by
              rw [hp]
              simp
            have : ('\n' : Char) ∈ hdrLit := by
              rw [hp2]
              exact List.mem_append_left _ hlast
            exact absurd this (by decide)
    rw [show (c :: pre2) ++ y = c :: (pre2 ++ y) from by simp, findHeader_cons_eq, hnm]
    simp only
    rw [ih hninc2 hnl2]
    cases hf : findHeader y with
    | none => simp
    | some r => simp

/-! ## C5 (amended): upsert of a new model appends after the parsed record -/

/-- C5 (amended): when the schema file's content is read back as exactly one
model record `a` and a distinct model `b` is upserted, the written file is the
serialization of `[a, b-entry]`: the record `a` *as recovered by the
restricted reader* is unchanged and appears before `b`.  (The original claim
fails because the reader does not recover `a`'s tests or column descriptions,
see `updateSchema_drops_tests_cex`.) -/
theorem updateSchema_upsert_appends (s : Str) (a : ModelRec)
    (bname bdesc : Str) (bcols : List ColOpt) (btests : List Str)
    (hp : parseBasicYaml s = ⟨2, [a]⟩) (hne : a.name ≠ bname) :
    updateSchemaContent (some s) bname bdesc bcols btests
      = generateBasicYaml
          ⟨2, [a, applyUpdates bdesc btests bcols ⟨bname, none, none, none⟩]⟩ := by
  have hb : (a.name == bname) = false := beq_eq_false_iff_ne.mpr hne
  simp only [updateSchemaContent, hp]
  simp [hb]

/-- Witness for C5 (amended) at a concrete schema file. -/
theorem updateSchema_upsert_appends_witness :
    updateSchemaContent (some (chars "version: 2\n\nmodels:\n  - name: a\n\n"))
        (chars "b") (chars "B model") [] []
      = generateBasicYaml
          ⟨2, [⟨chars "a", none, none, none⟩,
            applyUpdates (chars "B model") [] [] ⟨chars "b", none, none, none⟩]⟩ :=
  updateSchema_upsert_appends _ _ _ _ _ _ (by decide) (by decide)

/-! ## C6 (amended): frame property on the parsed record -/

/-- C6 (amended): upserting an existing model with a new description and no
columns/tests leaves every other field of the *parsed* record unchanged (its
column names survive); but since the restricted reader does not recover column
descriptions, a documented column's description is not preserved on disk
(see `updateSchema_drops_column_doc_cex`). -/
theorem updateSchema_desc_only_frame (s : Str) (a : ModelRec) (newDesc : Str)
    (hp : parseBasicYaml s = ⟨2, [a]⟩) :
    updateSchemaContent (some s) a.name newDesc [] []
      = generateBasicYaml
          ⟨2, [{ a with
            description := if newDesc.isEmpty then a.description else some newDesc }]⟩
    ∧ ({ a with
          description := if newDesc.isEmpty then a.description
            else some newDesc } : ModelRec).columns = a.columns
    ∧ ({ a with
          description := if newDesc.isEmpty then a.description
            else some newDesc } : ModelRec).tests = a.tests := by
  refine ⟨?_, rfl, rfl⟩
  have hb : (a.name == a.name) = true := beq_self_eq_true a.name
  simp only [updateSchemaContent, hp]
  simp only [List.any_cons, List.any_nil, hb, Bool.true_or, if_true, updateFirst, if_pos hb]
  unfold applyUpdates
  by_cases hd : newDesc.isEmpty
  · simp [hd]
  · simp [hd]

/-- Witness for C6 (amended) at a concrete schema file. -/
theorem updateSchema_desc_only_frame_witness :
    updateSchemaContent (some (chars "version: 2\n\nmodels:\n  - name: m\n    columns:\n      - name: id\n\n"))
        (⟨chars "m", none, none, some [⟨chars "id", none, none⟩]⟩ : ModelRec).name
        (chars "New description") [] []
      = generateBasicYaml
          ⟨2, [{ (⟨chars "m", none, none, some [⟨chars "id", none, none⟩]⟩ : ModelRec) with
            description := if (chars "New description").isEmpty
              then (⟨chars "m", none, none,
                some [⟨chars "id", none, none⟩]⟩ : ModelRec).description
              else some (chars "New description") }]⟩
    ∧ ({ (⟨chars "m", none, none, some [⟨chars "id", none, none⟩]⟩ : ModelRec) with
          description := if (chars "New description").isEmpty
            then (⟨chars "m", none, none,
              some [⟨chars "id", none, none⟩]⟩ : ModelRec).description
            else some (chars "New description") } : ModelRec).columns
        = (⟨chars "m", none, none, some [⟨chars "id", none, none⟩]⟩ : ModelRec).columns
    ∧ ({ (⟨chars "m", none, none, some [⟨chars "id", none, none⟩]⟩ : ModelRec) with
          description := if (chars "New description").isEmpty
            then (⟨chars "m", none, none,
              some [⟨chars "id", none, none⟩]⟩ : ModelRec).description
            else some (chars "New description") } : ModelRec).tests
        = (⟨chars "m", none, none, some [⟨chars "id", none, none⟩]⟩ : ModelRec).tests :=
  updateSchema_desc_only_frame _ _ _ (by decide)

/-! ## C8 (amended): `generateModel` performs no name validation -/

/-- C8 (amended): `generateModel` performs no validation of the artifact name
at all: for every options record — the empty name included — it proceeds to
produce exactly its two file writes, `<dir>/<name>.sql` and
`<dir>/schema.yml` with `dir` given by the directory resolver.  No
InvalidArgument-style rejection exists in the code
(see `generateModel_empty_name_cex`). -/
theorem generateModel_no_validation (o : GenOpts) (ex : Option Str) :
    (generateModelWrites o ex).map (fun w => (w.1, w.2.1))
      = [(getModelDirectory o.name, o.name ++ chars ".sql"),
         (getModelDirectory o.name, chars "schema.yml")] := by
  rfl

/-! ## C1 (amended): idempotence of the declaration-file merger -/

theorem matchAllAt_some_decomp {s i a : Str} (h : matchAllAt s = some (i, a)) :
    ∃ w1 w2, (∀ c ∈ w1, isWs c = true) ∧ (∀ c ∈ w2, isWs c = true) ∧
      s = allLit ++ w1 ++ '=' :: w2 ++ '[' :: i ++ ']' :: a ∧ (']' : Char) ∉ i := by
  unfold matchAllAt at h
  split at h
  · exact absurd h (by simp)
  next r1 h1 =>
    have hs : s = allLit ++ r1 := stripLit_eq_some_iff.mp h1
    unfold matchTail at h
    split at h
    next r2 h2 =>
      obtain ⟨w1, hw1, hws1⟩ := dropWsL_decomp r1
      rw [h2] at hw1
      split at h
      next r3 h3 =>
        obtain ⟨w2, hw2, hws2⟩ := dropWsL_decomp r2
        rw [h3] at hw2
        obtain ⟨hr3, hni⟩ := scanClose_eq_some_iff.mp h
        refine ⟨w1, w2, hws1, hws2, ?_, hni⟩
        rw [hs, hw1, hw2, hr3]
        simp
      all_goals exact absurd h (by simp)
    all_goals exact absurd h (by simp)

theorem matchAllAt_close_suffix {s i a : Str} (h : matchAllAt s = some (i, a)) :
    (']' :: a) <:+ s := by
  obtain ⟨w1, w2, -, -, hs, -⟩ := matchAllAt_some_decomp h
  exact ⟨allLit ++ w1 ++ '=' :: w2 ++ '[' :: i, by rw [hs]⟩

theorem findAllC_close_suffix {s b i a : Str} (h : findAllC s = some (b, i, a)) :
    (']' :: a) <:+ s := by
  induction s generalizing b with
  | nil => exact absurd h (by simp [findAllC])
  | cons c cs ih =>
    unfold findAllC at h
    cases hm : matchAllAt (c :: cs) with
    | some p =>
      rw [hm] at h
      obtain ⟨i0, a0⟩ := p
      obtain ⟨h1, h2, h3⟩ : ([] : Str) = b ∧ i0 = i ∧ a0 = a := by
        have := Option.some.inj h
        refine ⟨congrArg (fun x => x.1) this, ?_, ?_⟩
        · exact congrArg (fun x => x.2.1) this
        · exact congrArg (fun x => x.2.2) this
      subst h2; subst h3
      exact matchAllAt_close_suffix hm
    | none =>
      rw [hm] at h
      cases hf : findAllC cs with
      | none => rw [hf] at h; exact absurd h (by simp)
      | some r =>
        rw [hf] at h
        obtain ⟨b0, i0, a0⟩ := r
        obtain ⟨-, h2, h3⟩ : c :: b0 = b ∧ i0 = i ∧ a0 = a := by
          have := Option.some.inj h
          refine ⟨congrArg (fun x => x.1) this, ?_, ?_⟩
          · exact congrArg (fun x => x.2.1) this
          · exact congrArg (fun x => x.2.2) this
        subst h2; subst h3
        exact (ih hf).trans (List.suffix_cons c cs)

theorem findAllC_none_of_no_close {s : Str} (h : (']' : Char) ∉ s) :
    findAllC s = none := by
  cases hf : findAllC s with
  | none => rfl
  | some r =>
    obtain ⟨b, i, a⟩ := r
    obtain ⟨t, ht⟩ := findAllC_close_suffix hf
    exact absurd (by rw [← ht]; simp : (']' : Char) ∈ s) h

theorem suffix_of_suffix_length_le {u v s : Str} (hu : u <:+ s) (hv : v <:+ s)
    (h : u.length ≤ v.length) : u <:+ v := by
  obtain ⟨x, rfl⟩ := hv
  obtain ⟨y, hy⟩ := hu
  rcases List.append_eq_append_iff.mp hy with ⟨a2, ha1, ha2⟩ | ⟨c2, hc1, hc2⟩
  · have : a2.length + v.length = u.length := by
      have := congrArg List.length ha2
      simp at this
      omega
    have hlen : a2.length = 0 := by omega
    have : a2 = [] := List.length_eq_zero.mp hlen
    subst this
    simp at ha2
    rw [ha2]
  · exact ⟨c2, hc2.symm⟩

theorem findAllC_append_y_suffix {x y b i a : Str}
    (h : findAllC (x ++ y) = some (b, i, a)) (hy : (']' : Char) ∉ y) : y <:+ a := by
  have h1 : (']' :: a) <:+ x ++ y := findAllC_close_suffix h
  have h2 : y <:+ x ++ y := ⟨x, rfl⟩
  by_cases hl : y.length ≤ (']' :: a).length
  · have := suffix_of_suffix_length_le h2 h1 hl
    rcases List.suffix_cons_iff.mp this with he | hs
    · exact absurd (by rw [he]; simp : (']' : Char) ∈ y) hy
    · exact hs
  · have := suffix_of_suffix_length_le h1 h2 (by omega)
    obtain ⟨t, ht⟩ := this
    exact absurd (by rw [← ht]; simp : (']' : Char) ∈ y) hy

theorem close_not_mem_import_nl {S : Str} (hS : (']' : Char) ∉ S) :
    (']' : Char) ∉ importLineOf S ++ ['\n'] := by
  unfold importLineOf
  intro hmem
  simp only [List.append_assoc, List.mem_append, List.mem_singleton] at hmem
  rcases hmem with h | h | h | h | h
  · exact absurd h (by decide)
  · exact hS h
  · exact absurd h (by decide)
  · exact hS h
  · exact absurd h (by decide)

theorem updateInitWrite_includes_import {content S r : Str} (hS : (']' : Char) ∉ S)
    (h : updateInitWrite content S = some r) :
    jsIncludes r (importLineOf S) = true := by
  unfold updateInitWrite at h
  by_cases hinc : jsIncludes content (importLineOf S) = true
  · rw [if_pos hinc] at h; exact absurd h (by simp)
  · rw [if_neg hinc] at h
    simp only at h
    cases hf : findAllC (content ++ importLineOf S ++ ['\n']) with
    | none =>
      rw [hf] at h
      have hr := Option.some.inj h
      rw [← hr]
      have : content ++ importLineOf S ++ ['\n']
          ++ chars "\n__all__ = [\"" ++ S ++ chars "\"]\n"
          = content ++ importLineOf S
            ++ (['\n'] ++ chars "\n__all__ = [\"" ++ S ++ chars "\"]\n") := by simp
      rw [this]
      have := jsIncludes_of_middle content (importLineOf S)
        (['\n'] ++ chars "\n__all__ = [\"" ++ S ++ chars "\"]\n")
      simpa [List.append_assoc] using this
    | some rr =>
      obtain ⟨b, i, a⟩ := rr
      rw [hf] at h
      simp only at h
      by_cases hc : (parseMembers i).contains S = true
      · rw [if_pos hc] at h
        have hr := Option.some.inj h
        rw [← hr]
        have : content ++ importLineOf S ++ ['\n']
            = content ++ importLineOf S ++ ['\n'] := rfl
        have := jsIncludes_of_middle content (importLineOf S) ['\n']
        simpa [List.append_assoc] using this
      · rw [if_neg hc] at h
        have hr := Option.some.inj h
        have hf2 : findAllC (content ++ (importLineOf S ++ ['\n'])) = some (b, i, a) := by
          rw [← List.append_assoc]; exact hf
        have hsuf : (importLineOf S ++ ['\n']) <:+ a :=
          findAllC_append_y_suffix hf2 (close_not_mem_import_nl hS)
        obtain ⟨t, ht⟩ := hsuf
        rw [← hr]
        exact includes_of_suffix_part ht

/-- C1 (amended): for every symbol name free of the character `']'` (which
would interfere with the construct regex's lazy close), `updateInitFile` is
idempotent on file content — the content after a second registration of the
same symbol is byte-identical to the content after the first; and whenever
the generated import line is already present, the call performs no write at
all.  (For names containing `']'` idempotence fails,
see `updateInit_not_idempotent_cex`.) -/
theorem updateInit_idempotent (content S : Str) (hS : (']' : Char) ∉ S) :
    updateInit (updateInit content S) S = updateInit content S
    ∧ (jsIncludes content (importLineOf S) = true → updateInitWrite content S = none) := by
  constructor
  · cases hw : updateInitWrite content S with
    | none =>
      have h1 : updateInit content S = content := by simp [updateInit, hw]
      rw [h1]
      exact h1
    | some r =>
      have h1 : updateInit content S = r := by simp [updateInit, hw]
      rw [h1]
      have hinc : jsIncludes r (importLineOf S) = true :=
        updateInitWrite_includes_import hS hw
      have h2 : updateInitWrite r S = none := by
        unfold updateInitWrite
        rw [if_pos hinc]
      simp [updateInit, h2]
  · intro h
    unfold updateInitWrite
    rw [if_pos h]

/-- Witness for C1 (amended) at concrete content and symbol. -/
theorem updateInit_idempotent_witness :
    updateInit (updateInit (chars "from .a import a\n\n__all__ = [\"a\"]\n") (chars "b"))
        (chars "b")
      = updateInit (chars "from .a import a\n\n__all__ = [\"a\"]\n") (chars "b")
    ∧ (jsIncludes (chars "from .a import a\n\n__all__ = [\"a\"]\n")
          (importLineOf (chars "b")) = true →
        updateInitWrite (chars "from .a import a\n\n__all__ = [\"a\"]\n")
          (chars "b") = none) :=
  updateInit_idempotent _ _ (by decide)

/-! ## C10: quote stripping on rewrite -/

theorem stripQuotes_no_quotes (l : Str) :
    ('"' : Char) ∉ stripQuotes l ∧ ('\'' : Char) ∉ stripQuotes l := by
  constructor
  · intro h
    obtain ⟨-, hp⟩ := List.mem_filter.mp h
    simp at hp
  · intro h
    obtain ⟨-, hp⟩ := List.mem_filter.mp h
    simp at hp

/-- C10 (amended): whenever `updateInitFile` rewrites an existing `__all__`
list — whose body and new symbol are free of `'$'`, so the replacement string
is not altered by the `GetSubstitution` expansion — to append a
not-yet-present symbol, the written construct consists of the previously
parsed members re-emitted bare — every one of them has had all single- and
double-quote characters stripped — followed by exactly the new member, which
alone is emitted wrapped in double quotes. -/
theorem updateInit_rewrite_shape (content S b i a : Str)
    (h1 : jsIncludes content (importLineOf S) = false)
    (h2 : findAllC (content ++ importLineOf S ++ ['\n']) = some (b, i, a))
    (h3 : (parseMembers i).contains S = false)
    (h4 : ('$' : Char) ∉ i) (h5 : ('$' : Char) ∉ S) :
    updateInit content S
      = b ++ allConstructOf
          ((parseMembers i).filter (fun s => !s.isEmpty) ++ [dquote S]) ++ a
    ∧ (∀ m ∈ parseMembers i, ('"' : Char) ∉ m ∧ ('\'' : Char) ∉ m)
    ∧ dquote S = '"' :: S ++ ['"'] := by
  have hd : ('$' : Char) ∉ allConstructOf
      ((parseMembers i).filter (fun s => !s.isEmpty) ++ [dquote S]) := by
    refine dollar_not_mem_allConstructOf ?_
    intro x hx
    rcases List.mem_append.mp hx with hx | hx
    · exact fun hc => h4 (parseMembers_subset (List.mem_of_mem_filter hx) hc)
    · rw [List.mem_singleton.mp hx]
      exact dollar_not_mem_dquote h5
  refine ⟨?_, ?_, rfl⟩
  · unfold updateInit updateInitWrite
    rw [if_neg (by simp [h1])]
    simp only [h2, h3, Bool.false_eq_true, if_false, Option.getD_some]
    rw [getSubstitution_no_dollar hd]
  · intro m hm
    unfold parseMembers at hm
    obtain ⟨s, -, hs⟩ := List.mem_map.mp hm
    rw [← hs]
    exact stripQuotes_no_quotes _

/-! ## C9 (amended): the exported-symbols invariant

The next block shows that for benign symbol names the merger always re-finds
the single `__all__` construct it maintains: no match of the construct
pattern can start inside the text before the construct. -/

theorem matchAllAt_allHdr (Y : Str) : matchAllAt (allHdr ++ Y) = scanClose Y := rfl

theorem findAllC_cons_eq (c : Char) (cs : Str) :
    findAllC (c :: cs) =
      match matchAllAt (c :: cs) with
      | some (i, a) => some ([], i, a)
      | none => (findAllC cs).map (fun r => (c :: r.1, r.2.1, r.2.2)) := rfl

theorem matchTail_ws_cons {c : Char} (h : isWs c = true) (l : Str) :
    matchTail (c :: l) = matchTail l := by
  unfold matchTail
  rw [show dropWsL (c :: l) = dropWsL l from by simp [dropWsL, h]]

theorem matchTail_head_fail {c : Char} (hws : isWs c = false) (hc : c ≠ '=') (l : Str) :
    matchTail (c :: l) = none := by
  unfold matchTail
  rw [show dropWsL (c :: l) = c :: l from dropWsL_cons_eq_iff.mpr hws]
  split
  next r2 heq => exact absurd (List.cons.inj heq).1 hc
  next => rfl

theorem dropWsL_underscore_no_bracket {x T2 r : Str} (hx : ('[' : Char) ∉ x)
    (h : dropWsL (x ++ '_' :: T2) = '[' :: r) : False := by
  induction x with
  | nil =>
    rw [List.nil_append,
      show dropWsL ('_' :: T2) = '_' :: T2 from dropWsL_cons_eq_iff.mpr (by decide)] at h
    exact absurd (List.cons.inj h).1 (by decide)
  | cons c cs ih =>
    by_cases hw : isWs c = true
    · rw [List.cons_append, show dropWsL (c :: (cs ++ '_' :: T2)) = dropWsL (cs ++ '_' :: T2)
        from by simp [dropWsL, hw]] at h
      exact ih (fun hm => hx (List.mem_cons_of_mem _ hm)) h
    · rw [List.cons_append, show dropWsL (c :: (cs ++ '_' :: T2)) = c :: (cs ++ '_' :: T2)
        from dropWsL_cons_eq_iff.mpr (by simpa using hw)] at h
      exact hx ((List.cons.inj h).1 ▸ List.mem_cons_self c cs)

theorem matchTail_underscore_none {x : Str} (hx : ('[' : Char) ∉ x) (T2 : Str) :
    matchTail (x ++ '_' :: T2) = none := by
  induction x with
  | nil =>
    rw [List.nil_append]
    exact matchTail_head_fail (by decide) (by decide) T2
  | cons c cs ih =>
    have hcs : ('[' : Char) ∉ cs := fun hm => hx (List.mem_cons_of_mem _ hm)
    by_cases hw : isWs c = true
    · rw [List.cons_append, matchTail_ws_cons hw]
      exact ih hcs
    · by_cases hce : c = '='
      · subst hce
        unfold matchTail
        rw [List.cons_append,
          show dropWsL ('=' :: (cs ++ '_' :: T2)) = '=' :: (cs ++ '_' :: T2)
            from dropWsL_cons_eq_iff.mpr (by decide)]
        simp only
        split
        next r3 heq => exact absurd heq (fun hh => dropWsL_underscore_no_bracket hcs hh)
        next => rfl
      · rw [List.cons_append]
        exact matchTail_head_fail (by simpa using hw) hce _

theorem matchAllAt_before_construct {A X : Str} (hA : ('[' : Char) ∉ A) (hAne : A ≠ []) :
    matchAllAt (A ++ (allHdr ++ X)) = none := by
  unfold matchAllAt
  split
  next => rfl
  next r1 h1 =>
    rcases stripLit_append_cases h1 with ⟨A2, hA2, hr⟩ | ⟨p2, hp2, hsp⟩
    · have hA2f : ('[' : Char) ∉ A2 := fun hm => hA (by rw [hA2]; simp [hm])
      rw [hr, show allHdr ++ X = '_' :: (chars "_all__ = [" ++ X) from rfl]
      exact matchTail_underscore_none hA2f _
    · have hmem : p2 ∈ allLit.tails := (List.mem_tails _ _).mpr ⟨A, hp2.symm⟩
      rw [show allLit.tails
          = [chars "__all__", chars "_all__", chars "all__", chars "ll__", chars "l__",
             chars "__", chars "_", []] from by decide] at hmem
      fin_cases hmem
      · -- p2 = "__all__" forces A = []
        exfalso
        have hlen := congrArg List.length hp2
        rw [List.length_append] at hlen
        rw [show (allLit.length : Nat) = 7 from rfl,
          show ((chars "__all__").length : Nat) = 7 from rfl] at hlen
        have : A = [] := List.length_eq_zero.mp (by omega)
        exact hAne this
      · -- p2 = "_all__": the literal cannot resume here
        rw [show stripLit (chars "_all__") (allHdr ++ X) = none from rfl] at hsp
        exact absurd hsp (by simp)
      · rw [show stripLit (chars "all__") (allHdr ++ X) = none from rfl] at hsp
        exact absurd hsp (by simp)
      · rw [show stripLit (chars "ll__") (allHdr ++ X) = none from rfl] at hsp
        exact absurd hsp (by simp)
      · rw [show stripLit (chars "l__") (allHdr ++ X) = none from rfl] at hsp
        exact absurd hsp (by simp)
      · -- p2 = "__": strip succeeds, but the next character is 'a'
        rw [show stripLit (chars "__") (allHdr ++ X)
            = some ('a' :: (chars "ll__ = [" ++ X)) from rfl] at hsp
        rw [← Option.some.inj hsp]
        exact matchTail_head_fail (by decide) (by decide) _
      · -- p2 = "_": strip succeeds, but the next character is '_'
        rw [show stripLit (chars "_") (allHdr ++ X)
            = some ('_' :: (chars "all__ = [" ++ X)) from rfl] at hsp
        rw [← Option.some.inj hsp]
        exact matchTail_head_fail (by decide) (by decide) _
      · -- p2 = []: strip is the identity, the next character is '_'
        rw [show stripLit ([] : Str) (allHdr ++ X) = some (allHdr ++ X) from rfl] at hsp
        rw [← Option.some.inj hsp,
          show allHdr ++ X = '_' :: (chars "_all__ = [" ++ X) from rfl]
        exact matchTail_head_fail (by decide) (by decide) _

theorem findAllC_at_construct {A inner B : Str} (hA : ('[' : Char) ∉ A)
    (hinner : (']' : Char) ∉ inner) :
    findAllC (A ++ (allHdr ++ inner ++ ']' :: B)) = some (A, inner, B) := by
  induction A with
  | nil =>
    rw [List.nil_append,
      show allHdr ++ inner ++ ']' :: B = '_' :: (chars "_all__ = [" ++ inner ++ ']' :: B)
        from by simp [List.append_assoc]; rfl,
      findAllC_cons_eq]
    rw [show ('_' : Char) :: (chars "_all__ = [" ++ inner ++ ']' :: B)
        = allHdr ++ (inner ++ ']' :: B) from by simp [List.append_assoc]; rfl]
    rw [matchAllAt_allHdr, scanClose_some_of_shape hinner]
  | cons c A2 ih =>
    have hA2f : ('[' : Char) ∉ A2 := fun hm => hA (List.mem_cons_of_mem _ hm)
    have hnone : matchAllAt (c :: (A2 ++ (allHdr ++ inner ++ ']' :: B))) = none := by
      have := matchAllAt_before_construct (A := c :: A2)
        (X := inner ++ ']' :: B) hA (by simp)
      simpa [List.append_assoc] using this
    rw [List.cons_append, findAllC_cons_eq, hnone]
    simp only
    rw [ih hA2f]
    rfl

theorem dropWsL_space (l : Str) : dropWsL (' ' :: l) = dropWsL l := rfl

theorem contains_iff_mem_str {l : List Str} {a : Str} : l.contains a = true ↔ a ∈ l := by
  simp

theorem splitOnC_join_comma {x : Str} {rest : List Str} (hx : (',' : Char) ∉ x)
    (hrest : ∀ y ∈ rest, (',' : Char) ∉ y) :
    splitOnC ',' (joinSep (chars ", ") (x :: rest))
      = x :: rest.map (fun y => ' ' :: y) := by
  induction rest generalizing x with
  | nil => exact splitOnC_of_not_mem hx
  | cons y t ih =>
    rw [joinSep_cons_cons,
      show x ++ chars ", " ++ joinSep (chars ", ") (y :: t)
        = x ++ ',' :: (' ' :: joinSep (chars ", ") (y :: t)) from by
          rw [List.append_assoc]; rfl,
      splitOnC_append hx]
    have hy : (',' : Char) ∉ y := hrest y (by simp)
    have ht : ∀ z ∈ t, (',' : Char) ∉ z := fun z hz => hrest z (by simp [hz])
    rw [splitOnC_cons_eq, if_neg (by decide), ih hy ht]
    simp

theorem jsTrim_space_cons {m : Str} (h : jsTrim m = m) : jsTrim (' ' :: m) = m := by
  unfold jsTrim
  rw [dropWsL_space]
  exact h

theorem dquote_eq_append (S : Str) : dquote S = ('"' :: S) ++ ['"'] := by
  simp [dquote]

theorem stripQuotes_eq_self {s : Str} (h1 : ('"' : Char) ∉ s) (h2 : ('\'' : Char) ∉ s) :
    stripQuotes s = s := by
  refine List.filter_eq_self.mpr (fun c hc => ?_)
  have hq1 : (c == '\'') = false := beq_eq_false_iff_ne.mpr (fun hh => h2 (hh ▸ hc))
  have hq2 : (c == '"') = false := beq_eq_false_iff_ne.mpr (fun hh => h1 (hh ▸ hc))
  simp [hq1, hq2]

theorem stripQuotes_dquote {S : Str} (h1 : ('"' : Char) ∉ S) (h2 : ('\'' : Char) ∉ S) :
    stripQuotes (dquote S) = S := by
  have hself : stripQuotes S = S := stripQuotes_eq_self h1 h2
  unfold stripQuotes at hself ⊢
  rw [dquote_eq_append, List.filter_append, List.filter_cons]
  simp only [show (!(('"' : Char) == '\'' || ('"' : Char) == '"')) = false from by decide,
    Bool.false_eq_true, if_false]
  rw [hself, show List.filter (fun c => !(c == '\'' || c == '"')) ['"'] = [] from by decide]
  simp

theorem jsTrim_dquote (S : Str) : jsTrim (dquote S) = dquote S := by
  unfold jsTrim
  have h1 : dropWsL (dquote S) = dquote S := by
    rw [dquote]
    exact dropWsL_cons_eq_iff.mpr (by decide)
  rw [h1, dquote_eq_append]
  exact dropWsR_append (by decide) (by simp) _

theorem cleanSym_trim_strip {m : Str} (hm : cleanSym m) :
    stripQuotes (jsTrim m) = m := by
  obtain ⟨-, ht, -, -, -, hq, hq2, -⟩ := hm
  rw [ht]
  exact stripQuotes_eq_self hq hq2

theorem parseMembers_join {ms : List Str} {S : Str} (hms : ∀ m ∈ ms, cleanSym m)
    (hS : cleanSym S) :
    parseMembers (joinSep (chars ", ") (ms ++ [dquote S])) = ms ++ [S] := by
  obtain ⟨hSne, hSt, hSc, -, -, hSq, hSq2, -⟩ := hS
  have hdqS : stripQuotes (jsTrim (dquote S)) = S := by
    rw [jsTrim_dquote]
    exact stripQuotes_dquote hSq hSq2
  have hdqc : (',' : Char) ∉ dquote S := by
    rw [dquote_eq_append]
    simp only [List.mem_append, List.mem_cons, List.mem_singleton, not_or]
    exact ⟨⟨by decide, hSc⟩, by decide⟩
  cases ms with
  | nil =>
    unfold parseMembers
    rw [show joinSep (chars ", ") ([] ++ [dquote S]) = dquote S from rfl,
      splitOnC_of_not_mem hdqc]
    simp [hdqS]
  | cons m1 rest =>
    have hm1 := hms m1 (by simp)
    have hrest : ∀ y ∈ rest ++ [dquote S], (',' : Char) ∉ y := by
      intro y hy
      rcases List.mem_append.mp hy with hy | hy
      · exact (hms y (by simp [hy])).2.2.1
      · rw [List.mem_singleton.mp hy]
        exact hdqc
    unfold parseMembers
    rw [show (m1 :: rest) ++ [dquote S] = m1 :: (rest ++ [dquote S]) from rfl,
      splitOnC_join_comma hm1.2.2.1 hrest]
    rw [List.map_cons, cleanSym_trim_strip hm1, List.map_map, List.map_append]
    have hmap1 : (rest.map ((fun s => stripQuotes (jsTrim s)) ∘ (fun y => ' ' :: y)))
        = rest := by
      have : ∀ y ∈ rest,
          ((fun s => stripQuotes (jsTrim s)) ∘ (fun y => ' ' :: y)) y = id y := by
        intro y hy
        have hyc := hms y (by simp [hy])
        simp only [Function.comp_apply, id_eq]
        rw [jsTrim_space_cons hyc.2.1]
        exact stripQuotes_eq_self hyc.2.2.2.2.2.1 hyc.2.2.2.2.2.2.1
      rw [List.map_congr_left this, List.map_id]
    have hmap2 : ([dquote S].map ((fun s => stripQuotes (jsTrim s)) ∘ (fun y => ' ' :: y)))
        = [S] := by
      simp only [List.map_cons, List.map_nil, Function.comp_apply]
      rw [jsTrim_space_cons (jsTrim_dquote S), stripQuotes_dquote hSq hSq2]
    rw [hmap1, hmap2]
    simp

theorem isEmpty_false_of_ne {m : Str} (h : m ≠ []) : m.isEmpty = false := by
  cases m with
  | nil => exact absurd rfl h
  | cons c cs => rfl

theorem updateInit_of_includes {content S : Str}
    (h : jsIncludes content (importLineOf S) = true) : updateInit content S = content := by
  unfold updateInit updateInitWrite
  rw [if_pos h]
  rfl

theorem updateInit_eq_cases {content S : Str}
    (hni : jsIncludes content (importLineOf S) = false) :
    (findAllC (content ++ importLineOf S ++ ['\n']) = none →
      updateInit content S = content ++ importLineOf S ++ ['\n']
        ++ chars "\n__all__ = [\"" ++ S ++ chars "\"]\n") ∧
    (∀ b i a, findAllC (content ++ importLineOf S ++ ['\n']) = some (b, i, a) →
      ((parseMembers i).contains S = true →
        updateInit content S = content ++ importLineOf S ++ ['\n']) ∧
      ((parseMembers i).contains S = false →
        ('$' : Char) ∉ allConstructOf
            ((parseMembers i).filter (fun s => !s.isEmpty) ++ [dquote S]) →
        updateInit content S
          = b ++ allConstructOf
              ((parseMembers i).filter (fun s => !s.isEmpty) ++ [dquote S]) ++ a)) := by
  refine ⟨?_, ?_⟩
  · intro hf
    unfold updateInit updateInitWrite
    rw [if_neg (by simp [hni])]
    simp only [hf, Option.getD_some]
  · intro b i a hf
    refine ⟨?_, ?_⟩
    · intro hc
      unfold updateInit updateInitWrite
      rw [if_neg (by simp [hni])]
      simp only [hf, hc, if_true, Option.getD_some]
    · intro hc hd
      unfold updateInit updateInitWrite
      rw [if_neg (by simp [hni])]
      simp only [hf, hc, Bool.false_eq_true, if_false, Option.getD_some]
      rw [getSubstitution_no_dollar hd]

theorem open_not_mem_import {S : Str} (hS : ('[' : Char) ∉ S) :
    ('[' : Char) ∉ importLineOf S := by
  unfold importLineOf
  intro hmem
  simp only [List.append_assoc, List.mem_append] at hmem
  rcases hmem with h | h | h | h
  · exact absurd h (by decide)
  · exact hS h
  · exact absurd h (by decide)
  · exact hS h

theorem membersOf_construct {A inner B : Str} (hA : ('[' : Char) ∉ A)
    (hinner : (']' : Char) ∉ inner) :
    membersOf (A ++ allHdr ++ inner ++ ']' :: B) = some (parseMembers inner) := by
  unfold membersOf
  rw [show A ++ allHdr ++ inner ++ ']' :: B = A ++ (allHdr ++ inner ++ ']' :: B) from by
    simp [List.append_assoc]]
  rw [findAllC_at_construct hA hinner]
  rfl

theorem initInv_empty_step {S : Str} (hS : cleanSym S) :
    InitInv (updateInit [] S) ∧ membersOf (updateInit [] S) = some [S] := by
  obtain ⟨hSne, hSt, hSc, hScl, hSo, hSq, hSq2, hSd⟩ := hS
  have hne : jsIncludes [] (importLineOf S) = false := rfl
  have hcl2 : (']' : Char) ∉ [] ++ importLineOf S ++ ['\n'] := by
    simpa using close_not_mem_import_nl hScl
  have hf : findAllC ([] ++ importLineOf S ++ ['\n']) = none :=
    findAllC_none_of_no_close hcl2
  have hu := (updateInit_eq_cases hne).1 hf
  have hdec : updateInit [] S
      = (importLineOf S ++ ['\n', '\n']) ++ allHdr ++ dquote S ++ ']' :: ['\n'] := by
    rw [hu, show chars "\n__all__ = [\"" = '\n' :: (allHdr ++ ['"']) from rfl,
      show chars "\"]\n" = '"' :: ']' :: ['\n'] from rfl]
    simp [dquote, List.append_assoc]
  have hA : ('[' : Char) ∉ importLineOf S ++ ['\n', '\n'] := by
    intro hm
    rcases List.mem_append.mp hm with hm | hm
    · exact open_not_mem_import hSo hm
    · exact absurd hm (by decide)
  have hdq : (']' : Char) ∉ dquote S := by
    rw [dquote_eq_append]
    intro hm
    rcases List.mem_append.mp hm with hm | hm
    · rcases List.mem_cons.mp hm with hm | hm
      · exact absurd hm (by decide)
      · exact hScl hm
    · exact absurd hm (by decide)
  have hpm : parseMembers (dquote S) = [S] := by
    have := @parseMembers_join [] S (by simp)
      ⟨hSne, hSt, hSc, hScl, hSo, hSq, hSq2, hSd⟩
    simpa [joinSep] using this
  constructor
  · refine Or.inr ⟨importLineOf S ++ ['\n', '\n'], dquote S, ['\n'], hdec, hA, hdq, ?_, ?_⟩
    · rw [hpm]; exact List.nodup_singleton S
    · rw [hpm]
      intro m hm
      rw [List.mem_singleton.mp hm]
      exact ⟨hSne, hSt, hSc, hScl, hSo, hSq, hSq2, hSd⟩
  · rw [hdec, membersOf_construct hA hdq, hpm]

theorem initInv_construct_step {A inner B S : Str}
    (hA : ('[' : Char) ∉ A) (hinner : (']' : Char) ∉ inner)
    (hnd : (parseMembers inner).Nodup) (hclm : ∀ m ∈ parseMembers inner, cleanSym m)
    (hS : cleanSym S)
    (hni : jsIncludes (A ++ allHdr ++ inner ++ ']' :: B) (importLineOf S) = false) :
    InitInv (updateInit (A ++ allHdr ++ inner ++ ']' :: B) S) ∧
    membersOf (updateInit (A ++ allHdr ++ inner ++ ']' :: B) S)
      = some (if S ∈ parseMembers inner then parseMembers inner
              else parseMembers inner ++ [S]) := by
  have hshape : (A ++ allHdr ++ inner ++ ']' :: B) ++ importLineOf S ++ ['\n']
      = A ++ (allHdr ++ inner ++ ']' :: (B ++ importLineOf S ++ ['\n'])) := by
    simp [List.append_assoc]
  have hf : findAllC ((A ++ allHdr ++ inner ++ ']' :: B) ++ importLineOf S ++ ['\n'])
      = some (A, inner, B ++ importLineOf S ++ ['\n']) := by
    rw [hshape]
    exact findAllC_at_construct hA hinner
  have hcases := (updateInit_eq_cases hni).2 A inner (B ++ importLineOf S ++ ['\n']) hf
  by_cases hmem : S ∈ parseMembers inner
  · have hcont : (parseMembers inner).contains S = true := contains_iff_mem_str.mpr hmem
    have hr := hcases.1 hcont
    rw [hr]
    have hshape2 : (A ++ allHdr ++ inner ++ ']' :: B) ++ importLineOf S ++ ['\n']
        = A ++ allHdr ++ inner ++ ']' :: (B ++ importLineOf S ++ ['\n']) := by
      simp [List.append_assoc]
    rw [hshape2]
    constructor
    · exact Or.inr ⟨A, inner, B ++ importLineOf S ++ ['\n'], rfl, hA, hinner, hnd, hclm⟩
    · rw [membersOf_construct hA hinner, if_pos hmem]
  · have hcont : (parseMembers inner).contains S = false := by
      rw [← Bool.not_eq_true]
      exact fun hh => hmem (contains_iff_mem_str.mp hh)
    have hd : ('$' : Char) ∉ allConstructOf
        ((parseMembers inner).filter (fun s => !s.isEmpty) ++ [dquote S]) := by
      refine dollar_not_mem_allConstructOf ?_
      intro x hx
      rcases List.mem_append.mp hx with hx | hx
      · exact (hclm x (List.mem_of_mem_filter hx)).2.2.2.2.2.2.2
      · rw [List.mem_singleton.mp hx]
        exact dollar_not_mem_dquote hS.2.2.2.2.2.2.2
    have hr := hcases.2 hcont hd
    have hfilter : (parseMembers inner).filter (fun s => !s.isEmpty) = parseMembers inner :=
      List.filter_eq_self.mpr (fun m hm => by
        rw [isEmpty_false_of_ne (hclm m hm).1]; rfl)
    rw [hr, hfilter]
    have hinner2 : (']' : Char) ∉ joinSep (chars ", ") (parseMembers inner ++ [dquote S]) := by
      refine not_mem_joinSep (by decide) ?_
      intro x hx
      rcases List.mem_append.mp hx with hx | hx
      · exact (hclm x hx).2.2.2.1
      · rw [List.mem_singleton.mp hx, dquote_eq_append]
        intro hm
        rcases List.mem_append.mp hm with hm | hm
        · rcases List.mem_cons.mp hm with hm | hm
          · exact absurd hm (by decide)
          · exact hS.2.2.2.1 hm
        · exact absurd hm (by decide)
    have hpm : parseMembers (joinSep (chars ", ") (parseMembers inner ++ [dquote S]))
        = parseMembers inner ++ [S] := parseMembers_join hclm hS
    have hshape3 : A ++ allConstructOf (parseMembers inner ++ [dquote S])
          ++ (B ++ importLineOf S ++ ['\n'])
        = A ++ allHdr ++ joinSep (chars ", ") (parseMembers inner ++ [dquote S])
          ++ ']' :: (B ++ importLineOf S ++ ['\n']) := by
      unfold allConstructOf
      simp [List.append_assoc]
    rw [hshape3]
    constructor
    · refine Or.inr ⟨A, joinSep (chars ", ") (parseMembers inner ++ [dquote S]),
        B ++ importLineOf S ++ ['\n'], rfl, hA, hinner2, ?_, ?_⟩
      · rw [hpm]
        simp [List.nodup_append, hnd, hmem]
      · rw [hpm]
        intro m hm
        rcases List.mem_append.mp hm with hm | hm
        · exact hclm m hm
        · rw [List.mem_singleton.mp hm]; exact hS
    · rw [membersOf_construct hA hinner2, hpm, if_neg hmem]

theorem initInv_preserved {c S : Str} (hc : InitInv c) (hS : cleanSym S) :
    InitInv (updateInit c S) := by
  rcases hc with rfl | ⟨A, inner, B, rfl, hA, hinner, hnd, hclm⟩
  · exact (initInv_empty_step hS).1
  · by_cases hinc : jsIncludes (A ++ allHdr ++ inner ++ ']' :: B) (importLineOf S) = true
    · rw [updateInit_of_includes hinc]
      exact Or.inr ⟨A, inner, B, rfl, hA, hinner, hnd, hclm⟩
    · exact (initInv_construct_step hA hinner hnd hclm hS
        (by simpa using hinc)).1

theorem initInv_run {syms : List Str} (h : ∀ x ∈ syms, cleanSym x) :
    InitInv (initRun syms) := by
  suffices hgen : ∀ c, InitInv c → InitInv (syms.foldl updateInit c) from
    hgen [] (Or.inl rfl)
  induction syms with
  | nil => exact fun c hc => hc
  | cons x t ih =>
    intro c hc
    exact ih (fun z hz => h z (by simp [hz])) _
      (initInv_preserved hc (h x (by simp)))

/-- C9 (amended): for benign symbol names — nonempty, trim-stable, and free of
the characters `,`, `]`, `[`, `"`, `'`, `$` (the last because the string
replacement expands dollar patterns) — and every sequence of registrations
starting from an absent/empty index file: (a) the exported-symbols construct's
parsed member list never contains the same member twice; (b) a registration
whose import line is already present leaves the file unchanged, and otherwise
the members after the call are the previous members in their original order
with the new symbol appended at the end exactly when it was absent; (c) when
the construct is absent (fresh file) it is created containing exactly the new
symbol.  (For arbitrary symbol names the no-duplicates invariant fails, see
`updateInit_duplicate_member_cex`.) -/
theorem updateInit_members_invariant (syms : List Str) (S : Str)
    (hs : ∀ x ∈ syms, cleanSym x) (hS : cleanSym S) :
    (∀ ms, membersOf (initRun syms) = some ms → ms.Nodup)
    ∧ membersOf (updateInit [] S) = some [S]
    ∧ (∀ ms, membersOf (initRun syms) = some ms →
        (jsIncludes (initRun syms) (importLineOf S) = true →
          updateInit (initRun syms) S = initRun syms)
        ∧ (jsIncludes (initRun syms) (importLineOf S) = false →
            membersOf (updateInit (initRun syms) S)
              = some (if S ∈ ms then ms else ms ++ [S]))) := by
  have hinv := initInv_run hs
  refine ⟨?_, (initInv_empty_step hS).2, ?_⟩
  · intro ms hms
    rcases hinv with he | ⟨A, inner, B, heq, hA, hinner, hnd, hclm⟩
    · rw [he] at hms
      exact absurd hms (by simp [membersOf, findAllC])
    · rw [heq, membersOf_construct hA hinner] at hms
      rw [← Option.some.inj hms]
      exact hnd
  · intro ms hms
    rcases hinv with he | ⟨A, inner, B, heq, hA, hinner, hnd, hclm⟩
    · rw [he] at hms
      exact absurd hms (by simp [membersOf, findAllC])
    · rw [heq, membersOf_construct hA hinner] at hms
      have hmseq : ms = parseMembers inner := (Option.some.inj hms).symm
      subst hmseq
      constructor
      · intro hinc
        exact updateInit_of_includes hinc
      · intro hninc
        rw [heq] at hninc ⊢
        exact (initInv_construct_step hA hinner hnd hclm hS hninc).2

/-- Witness for C9 (amended) at a concrete registration sequence. -/
theorem updateInit_members_invariant_witness :
    (∀ ms, membersOf (initRun [chars "a1", chars "a2"]) = some ms → ms.Nodup)
    ∧ membersOf (updateInit [] (chars "a3")) = some [chars "a3"]
    ∧ (∀ ms, membersOf (initRun [chars "a1", chars "a2"]) = some ms →
        (jsIncludes (initRun [chars "a1", chars "a2"]) (importLineOf (chars "a3")) = true →
          updateInit (initRun [chars "a1", chars "a2"]) (chars "a3")
            = initRun [chars "a1", chars "a2"])
        ∧ (jsIncludes (initRun [chars "a1", chars "a2"])
              (importLineOf (chars "a3")) = false →
            membersOf (updateInit (initRun [chars "a1", chars "a2"]) (chars "a3"))
              = some (if chars "a3" ∈ ms then ms else ms ++ [chars "a3"]))) :=
  updateInit_members_invariant _ _ (by decide) (by decide)

/-- Witness for C10 at a concrete file with an existing `__all__` list. -/
theorem updateInit_rewrite_shape_witness :
    updateInit (chars "from .a import a\n\n__all__ = [\"a\"]\n") (chars "b")
      = chars "from .a import a\n\n"
        ++ allConstructOf
          ((parseMembers (chars "\"a\"")).filter (fun s => !s.isEmpty)
            ++ [dquote (chars "b")])
        ++ chars "\nfrom .b import b\n"
    ∧ (∀ m ∈ parseMembers (chars "\"a\""), ('"' : Char) ∉ m ∧ ('\'' : Char) ∉ m)
    ∧ dquote (chars "b") = '"' :: chars "b" ++ ['"'] :=
  updateInit_rewrite_shape _ _ _ _ _ (by decide) (by decide) (by decide) (by decide)
    (by decide)

/-! ## C4 (amended): configuration-header replacement and insertion -/

theorem findIdxS_none_of_all {p : Str → Bool} {ls : List Str}
    (h : ∀ l ∈ ls, p l = false) : findIdxS p ls = none := by
  induction ls with
  | nil => rfl
  | cons x t ih =>
    unfold findIdxS
    rw [if_neg (by simp [h x (List.mem_cons_self x t)]),
      ih (fun l hl => h l (List.mem_cons_of_mem x hl))]
    rfl

theorem findIdxS_some_of_first {p : Str → Bool} {ls : List Str} {k : Nat}
    (hk : k < ls.length) (hfst : ∀ j, j < k → p (ls.getD j []) = false)
    (hp : p (ls.getD k []) = true) : findIdxS p ls = some k := by
  induction ls generalizing k with
  | nil => simp at hk
  | cons x t ih =>
    cases k with
    | zero =>
      unfold findIdxS
      rw [if_pos (by simpa using hp)]
    | succ k2 =>
      unfold findIdxS
      rw [if_neg (by simpa using hfst 0 (Nat.succ_pos k2)),
        ih (by simpa using hk) (fun j hj => by simpa using hfst (j + 1) (by omega))
          (by simpa using hp)]
      rfl

theorem findIdxS_lt_length {p : Str → Bool} {ls : List Str} {k : Nat}
    (h : findIdxS p ls = some k) : k < ls.length := by
  induction ls generalizing k with
  | nil => simp [findIdxS] at h
  | cons x t ih =>
    unfold findIdxS at h
    by_cases hx : p x = true
    · rw [if_pos hx] at h
      cases Option.some.inj h
      simp
    · rw [if_neg hx] at h
      cases hm : findIdxS p t with
      | none => rw [hm] at h; exact absurd h (by simp)
      | some k2 =>
        rw [hm] at h
        have hk2 := ih hm
        have : k2 + 1 = k := by simpa using h
        simp [← this]
        omega

theorem joinNl_splitNl (s : Str) : joinNl (splitNl s) = s :=
  joinSep_splitOnC '\n' s

theorem brace_not_mem_matStr (m : Materialization) : ('}' : Char) ∉ matStr m := by
  cases m <;> decide

theorem configInner_eq (m : Materialization) (tags : List Str) :
    configInner m tags =
      (chars "materialized=\x27" ++ matStr m ++ chars "\x27") ++
      (if tags.isEmpty then []
       else chars ", " ++ (chars "tags=[\x27"
         ++ joinSep (chars "\x27, \x27") tags ++ chars "\x27]")) := by
  unfold configInner configOptions
  by_cases h : tags.isEmpty = true
  · rw [if_pos h, if_pos h]
    simp [joinSep]
  · rw [if_neg h, if_neg h]
    rw [show [chars "materialized=\x27" ++ matStr m ++ chars "\x27"]
        ++ [chars "tags=[\x27" ++ joinSep (chars "\x27, \x27") tags ++ chars "\x27]"]
      = (chars "materialized=\x27" ++ matStr m ++ chars "\x27")
        :: [chars "tags=[\x27" ++ joinSep (chars "\x27, \x27") tags ++ chars "\x27]"]
      from rfl, joinSep_cons_cons]
    simp [joinSep]

theorem brace_not_mem_configInner {m : Materialization} {tags : List Str}
    (htags : ∀ t ∈ tags, ('}' : Char) ∉ t) : ('}' : Char) ∉ configInner m tags := by
  rw [configInner_eq]
  intro hmem
  rcases List.mem_append.mp hmem with h1 | h2
  · rcases List.mem_append.mp h1 with h3 | h4
    · rcases List.mem_append.mp h3 with h5 | h6
      · exact absurd h5 (by decide)
      · exact absurd h6 (brace_not_mem_matStr m)
    · exact absurd h4 (by decide)
  · by_cases he : tags.isEmpty = true
    · rw [if_pos he] at h2
      exact absurd h2 (by simp)
    · rw [if_neg he] at h2
      rcases List.mem_append.mp h2 with h3 | h4
      · exact absurd h3 (by decide)
      · rcases List.mem_append.mp h4 with h5 | h6
        · rcases List.mem_append.mp h5 with h7 | h8
          · exact absurd h7 (by decide)
          · exact absurd h8 (not_mem_joinSep (by decide) htags)
        · exact absurd h6 (by decide)

theorem dollar_not_mem_matStr (m : Materialization) : ('$' : Char) ∉ matStr m := by
  cases m <;> decide

theorem dollar_not_mem_configInner {m : Materialization} {tags : List Str}
    (htags : ∀ t ∈ tags, ('$' : Char) ∉ t) : ('$' : Char) ∉ configInner m tags := by
  rw [configInner_eq]
  intro hmem
  rcases List.mem_append.mp hmem with h1 | h2
  · rcases List.mem_append.mp h1 with h3 | h4
    · rcases List.mem_append.mp h3 with h5 | h6
      · exact absurd h5 (by decide)
      · exact absurd h6 (dollar_not_mem_matStr m)
    · exact absurd h4 (by decide)
  · by_cases he : tags.isEmpty = true
    · rw [if_pos he] at h2
      exact absurd h2 (by simp)
    · rw [if_neg he] at h2
      rcases List.mem_append.mp h2 with h3 | h4
      · exact absurd h3 (by decide)
      · rcases List.mem_append.mp h4 with h5 | h6
        · rcases List.mem_append.mp h5 with h7 | h8
          · exact absurd h7 (by decide)
          · exact absurd h8 (not_mem_joinSep (by decide) htags)
        · exact absurd h6 (by decide)

theorem dollar_not_mem_configLine {m : Materialization} {tags : List Str}
    (htags : ∀ t ∈ tags, ('$' : Char) ∉ t) : ('$' : Char) ∉ configLine m tags := by
  unfold configLine
  intro hm
  rcases List.mem_append.mp hm with h1 | h1
  · rcases List.mem_append.mp h1 with h2 | h2
    · exact absurd h2 (by decide)
    · exact absurd h2 (dollar_not_mem_configInner htags)
  · exact absurd h1 (by decide)

theorem configInner_ne_nil (m : Materialization) (tags : List Str) :
    configInner m tags ≠ [] := by
  rw [configInner_eq]
  simp [chars]

theorem configInner_starts_mat (m : Materialization) (tags : List Str) :
    startsWithL (configInner m tags)
      (chars "materialized=\x27" ++ matStr m ++ chars "\x27") = true := by
  rw [configInner_eq]
  exact startsWithL_append_self _ _

theorem jsIncludes_hdr_nl_cons (x : Str) :
    jsIncludes ('\n' :: x) hdrLit = jsIncludes x hdrLit :=
  jsIncludes_cons_head_ne rfl (by decide)

theorem findHeader_config_tail (m : Materialization) (tags : List Str) (tail : Str)
    (htags : ∀ t ∈ tags, ('}' : Char) ∉ t) :
    findHeader (configLine m tags ++ tail) = some ([], configInner m tags, tail) := by
  rw [configLine_eq_hdrText]
  exact findHeader_of_match
    (matchHdrAt_header (brace_not_mem_configInner htags) (configInner_ne_nil m tags))
    (by
      intro hc
      exact hdr_append_ne_nil []
        (configInner m tags ++ [')', ' ', '}', '}'] ++ tail)
        (by simpa [hdrText, List.append_assoc] using hc))

theorem addModelConfig_includes_eq {sql : Str} (m : Materialization) (tags : List Str)
    (hinc : jsIncludes sql hdrLit = true) :
    addModelConfig sql m tags =
      match findHeader sql with
      | some (b, i, a) => b ++ getSubstitution (hdrText i) b a [] (configLine m tags) ++ a
      | none => sql := by
  unfold addModelConfig
  rw [hinc]
  rfl

theorem addModelConfig_not_includes_eq {sql : Str} (m : Materialization) (tags : List Str)
    (hinc : jsIncludes sql hdrLit = false) :
    addModelConfig sql m tags =
      match findIdxS lineSubstantive (splitNl sql) with
      | none => configLine m tags ++ '\n' :: '\n' :: sql
      | some k =>
          joinNl ((splitNl sql).take k ++ [configLine m tags, []] ++ (splitNl sql).drop k) := by
  unfold addModelConfig
  rw [hinc]
  rfl

theorem splitNl_decomp_of_lt {sql : Str} {k : Nat} (hk0 : 0 < k)
    (hk : k < (splitNl sql).length) :
    sql = joinNl ((splitNl sql).take k) ++ '\n' :: joinNl ((splitNl sql).drop k) := by
  have htakene : (splitNl sql).take k ≠ [] := by
    rw [← List.length_pos, List.length_take]
    omega
  have hdropne : (splitNl sql).drop k ≠ [] := by
    rw [← List.length_pos, List.length_drop]
    omega
  calc sql = joinNl (splitNl sql) := (joinNl_splitNl sql).symm
    _ = joinNl ((splitNl sql).take k ++ (splitNl sql).drop k) := by
        rw [List.take_append_drop]
    _ = joinNl ((splitNl sql).take k) ++ '\n' :: joinNl ((splitNl sql).drop k) :=
        joinNl_append htakene hdropne

theorem addModelConfig_insert_none (m : Materialization) (tags : List Str) {sql : Str}
    (htags : ∀ t ∈ tags, ('}' : Char) ∉ t)
    (hinc : jsIncludes sql hdrLit = false)
    (hk : findIdxS lineSubstantive (splitNl sql) = none) :
    addModelConfig sql m tags = configLine m tags ++ '\n' :: '\n' :: sql ∧
    headerOnce (addModelConfig sql m tags) = true := by
  have heq := addModelConfig_not_includes_eq m tags hinc
  rw [hk] at heq
  refine ⟨heq, ?_⟩
  rw [heq]
  unfold headerOnce
  rw [findHeader_config_tail m tags ('\n' :: '\n' :: sql) htags]
  simp only
  rw [findHeader_none_of_not_includes
    (by rw [jsIncludes_hdr_nl_cons, jsIncludes_hdr_nl_cons]; exact hinc)]
  rfl

theorem addModelConfig_insert_some (m : Materialization) (tags : List Str) {sql : Str}
    {k : Nat} (htags : ∀ t ∈ tags, ('}' : Char) ∉ t)
    (hinc : jsIncludes sql hdrLit = false)
    (hk : findIdxS lineSubstantive (splitNl sql) = some k) :
    addModelConfig sql m tags =
      joinNl ((splitNl sql).take k) ++ (if k = 0 then [] else ['\n']) ++
        configLine m tags ++ '\n' :: '\n' :: joinNl ((splitNl sql).drop k) ∧
    headerOnce (addModelConfig sql m tags) = true := by
  have hklen := findIdxS_lt_length hk
  have heq := addModelConfig_not_includes_eq m tags hinc
  rw [hk] at heq
  simp only at heq
  have hdropne : (splitNl sql).drop k ≠ [] := by
    rw [← List.length_pos, List.length_drop]
    omega
  obtain ⟨d0, dt, hd⟩ : ∃ d0 dt, (splitNl sql).drop k = d0 :: dt := by
    cases hdd : (splitNl sql).drop k with
    | nil => exact absurd hdd hdropne
    | cons d0 dt => exact ⟨d0, dt, rfl⟩
  have hmid : joinNl (configLine m tags :: [] :: (splitNl sql).drop k)
      = configLine m tags ++ '\n' :: '\n' :: joinNl ((splitNl sql).drop k) := by
    rw [hd]
    unfold joinNl
    rw [joinSep_cons_cons, joinSep_cons_cons]
    simp
  by_cases hk0 : k = 0
  · subst hk0
    rw [List.take_zero, List.drop_zero] at heq ⊢
    rw [show ([] : List Str) ++ [configLine m tags, []] ++ splitNl sql
      = configLine m tags :: [] :: splitNl sql from by simp] at heq
    rw [List.drop_zero] at hmid
    rw [heq, hmid]
    refine ⟨by simp [joinNl, joinSep], ?_⟩
    unfold headerOnce
    rw [findHeader_config_tail m tags ('\n' :: '\n' :: joinNl (splitNl sql)) htags]
    simp only
    rw [findHeader_none_of_not_includes
      (by rw [jsIncludes_hdr_nl_cons, jsIncludes_hdr_nl_cons, joinNl_splitNl]; exact hinc)]
    rfl
  · have hk0' : 0 < k := Nat.pos_of_ne_zero hk0
    have hsql := splitNl_decomp_of_lt hk0' hklen
    have htakene : (splitNl sql).take k ≠ [] := by
      rw [← List.length_pos, List.length_take]
      omega
    rw [show (splitNl sql).take k ++ [configLine m tags, []] ++ (splitNl sql).drop k
      = (splitNl sql).take k ++ (configLine m tags :: [] :: (splitNl sql).drop k)
      from by simp] at heq
    rw [joinNl_append htakene (by simp), hmid] at heq
    have hpre : jsIncludes (joinNl ((splitNl sql).take k) ++ ['\n']) hdrLit = false := by
      refine jsIncludes_false_of_infix ⟨[], joinNl ((splitNl sql).drop k), ?_⟩ hinc
      conv_rhs => rw [hsql]
      simp
    have htail : findHeader ('\n' :: '\n' :: joinNl ((splitNl sql).drop k)) = none := by
      refine findHeader_none_of_not_includes ?_
      rw [jsIncludes_hdr_nl_cons, jsIncludes_hdr_nl_cons]
      refine jsIncludes_false_of_infix ⟨joinNl ((splitNl sql).take k) ++ ['\n'], [], ?_⟩ hinc
      conv_rhs => rw [hsql]
      simp
    have hshape : addModelConfig sql m tags
        = (joinNl ((splitNl sql).take k) ++ ['\n'])
          ++ (configLine m tags ++ '\n' :: '\n' :: joinNl ((splitNl sql).drop k)) := by
      rw [heq]
      simp
    refine ⟨by rw [hshape, if_neg hk0]; simp, ?_⟩
    rw [hshape]
    have hfr := @findHeader_shift_nl (joinNl ((splitNl sql).take k) ++ ['\n'])
      (configLine m tags ++ '\n' :: '\n' :: joinNl ((splitNl sql).drop k))
      hpre (Or.inr ⟨joinNl ((splitNl sql).take k), rfl⟩)
    rw [findHeader_config_tail m tags ('\n' :: '\n' :: joinNl ((splitNl sql).drop k)) htags]
      at hfr
    unfold headerOnce
    rw [hfr]
    simp only [Option.map_some']
    rw [htail]
    rfl

theorem addModelConfig_replace (m : Materialization) (tags : List Str) {sql b i a : Str}
    (htags : ∀ t ∈ tags, ('}' : Char) ∉ t ∧ ('$' : Char) ∉ t)
    (honce : headerOnce sql = true) (hf : findHeader sql = some (b, i, a)) :
    addModelConfig sql m tags = b ++ configLine m tags ++ a ∧
    findHeader (addModelConfig sql m tags) = some (b, configInner m tags, a) ∧
    headerOnce (addModelConfig sql m tags) = true := by
  have hinc := findHeader_includes hf
  have heq := addModelConfig_includes_eq m tags hinc
  rw [hf] at heq
  simp only at heq
  rw [getSubstitution_no_dollar
    (dollar_not_mem_configLine (fun t ht => (htags t ht).2))] at heq
  have hdecomp := findHeader_some_decomp hf
  have hfr : findHeader (b ++ hdrText (configInner m tags) ++ a)
      = some (b, configInner m tags, a) :=
    findHeader_transport (hdecomp.1 ▸ hf)
      (brace_not_mem_configInner (fun t ht => (htags t ht).1))
      (configInner_ne_nil m tags)
  have hshape : addModelConfig sql m tags = b ++ hdrText (configInner m tags) ++ a := by
    rw [heq, configLine_eq_hdrText]
  have hanone : findHeader a = none := by
    unfold headerOnce at honce
    rw [hf] at honce
    simp only at honce
    cases hfa : findHeader a with
    | none => rfl
    | some r => rw [hfa] at honce; exact absurd honce (by simp)
  refine ⟨heq, by rw [hshape]; exact hfr, ?_⟩
  unfold headerOnce
  rw [hshape, hfr]
  simp only
  rw [hanone]
  rfl

/-- C4 (amended): for tag strings free of the character recognised as a header
terminator and of the dollar sign (which the `GetSubstitution` expansion of
the string replacement would rewrite), `addModelConfig` behaves as follows.
If the SQL text contains
exactly one configuration header (a first match whose remainder has no further
match), that header is replaced in place: the output is the old prefix, the
generated configuration line, and the old suffix, it again contains exactly one
header, at the same position, and that header opens with the new materialization
value. If the text contains no occurrence of the header opener, the output
contains exactly one header; when every line is blank or a `--` comment the
header is prepended (followed by a blank line and the original text), and
otherwise it is inserted, with a following blank line, immediately before the
first substantive line. (Unrestricted, the original claim fails: with two
headers present only the first is replaced, and a text containing the opener
without a complete header is returned unchanged, with no header at all.) -/
theorem addModelConfig_spec (sql : Str) (m : Materialization) (tags : List Str)
    (htags : ∀ t ∈ tags, ('}' : Char) ∉ t ∧ ('$' : Char) ∉ t) :
    (∀ b i a, headerOnce sql = true → findHeader sql = some (b, i, a) →
      addModelConfig sql m tags = b ++ configLine m tags ++ a ∧
      findHeader (addModelConfig sql m tags) = some (b, configInner m tags, a) ∧
      headerOnce (addModelConfig sql m tags) = true) ∧
    (jsIncludes sql hdrLit = false →
      headerOnce (addModelConfig sql m tags) = true ∧
      ((∀ l ∈ splitNl sql, lineSubstantive l = false) →
        addModelConfig sql m tags = configLine m tags ++ '\n' :: '\n' :: sql) ∧
      (∀ k, k < (splitNl sql).length →
        (∀ j, j < k → lineSubstantive ((splitNl sql).getD j []) = false) →
        lineSubstantive ((splitNl sql).getD k []) = true →
        addModelConfig sql m tags =
          joinNl ((splitNl sql).take k) ++ (if k = 0 then [] else ['\n']) ++
            configLine m tags ++ '\n' :: '\n' :: joinNl ((splitNl sql).drop k))) ∧
    startsWithL (configInner m tags)
      (chars "materialized=\x27" ++ matStr m ++ chars "\x27") = true := by
  refine ⟨fun b i a honce hf => addModelConfig_replace m tags htags honce hf,
    fun hinc => ⟨?_,
      fun hall => (addModelConfig_insert_none m tags (fun t ht => (htags t ht).1) hinc
        (findIdxS_none_of_all hall)).1,
      fun k hk hfst hp => (addModelConfig_insert_some m tags (fun t ht => (htags t ht).1)
        hinc (findIdxS_some_of_first hk hfst hp)).1⟩,
    configInner_starts_mat m tags⟩
  cases hidx : findIdxS lineSubstantive (splitNl sql) with
  | none =>
    exact (addModelConfig_insert_none m tags (fun t ht => (htags t ht).1) hinc hidx).2
  | some k =>
    exact (addModelConfig_insert_some m tags (fun t ht => (htags t ht).1) hinc hidx).2

/-- Witness for C4 (amended) at a concrete comment-led SQL text and tag list. -/
theorem addModelConfig_spec_witness :
    (∀ t ∈ [chars "daily"], ('}' : Char) ∉ t ∧ ('$' : Char) ∉ t) ∧
    ((∀ b i a, headerOnce (chars "-- note\n\nselect 1") = true →
        findHeader (chars "-- note\n\nselect 1") = some (b, i, a) →
        addModelConfig (chars "-- note\n\nselect 1") .table [chars "daily"]
          = b ++ configLine .table [chars "daily"] ++ a ∧
        findHeader (addModelConfig (chars "-- note\n\nselect 1") .table [chars "daily"])
          = some (b, configInner .table [chars "daily"], a) ∧
        headerOnce (addModelConfig (chars "-- note\n\nselect 1") .table [chars "daily"])
          = true) ∧
      (jsIncludes (chars "-- note\n\nselect 1") hdrLit = false →
        headerOnce (addModelConfig (chars "-- note\n\nselect 1") .table [chars "daily"])
          = true ∧
        ((∀ l ∈ splitNl (chars "-- note\n\nselect 1"), lineSubstantive l = false) →
          addModelConfig (chars "-- note\n\nselect 1") .table [chars "daily"]
            = configLine .table [chars "daily"] ++ '\n' :: '\n' :: chars "-- note\n\nselect 1") ∧
        (∀ k, k < (splitNl (chars "-- note\n\nselect 1")).length →
          (∀ j, j < k →
            lineSubstantive ((splitNl (chars "-- note\n\nselect 1")).getD j []) = false) →
          lineSubstantive ((splitNl (chars "-- note\n\nselect 1")).getD k []) = true →
          addModelConfig (chars "-- note\n\nselect 1") .table [chars "daily"]
            = joinNl ((splitNl (chars "-- note\n\nselect 1")).take k)
              ++ (if k = 0 then [] else ['\n'])
              ++ configLine .table [chars "daily"]
              ++ '\n' :: '\n' :: joinNl ((splitNl (chars "-- note\n\nselect 1")).drop k))) ∧
      startsWithL (configInner .table [chars "daily"])
        (chars "materialized=\x27" ++ matStr .table ++ chars "\x27") = true) :=
  ⟨by decide, addModelConfig_spec (chars "-- note\n\nselect 1") .table [chars "daily"]
    (by decide)⟩

/-! ## C2 (amended): the write/read/write round trip on the recovered dialect -/

theorem jsTrim_stable_append {x N : Str} (hx : dropWsL x = x) (hxne : x ≠ [])
    (hN : jsTrim N = N) (hNne : N ≠ []) : jsTrim (x ++ N) = x ++ N :=
  jsTrim_of_stable (dropWsL_append_head hx hxne N)
    (dropWsR_append (jsTrim_stable_both hN).2 hNne x)

theorem jsTrim_spaces {X : Str} (h : jsTrim X = X) :
    ∀ n, jsTrim (List.replicate n ' ' ++ X) = X
  | 0 => by simpa using h
  | n + 1 => by
    show jsTrim (' ' :: (List.replicate n ' ' ++ X)) = X
    unfold jsTrim
    rw [dropWsL_space]
    exact jsTrim_spaces h n

theorem jsTrim_name_line {N : Str} (hNt : jsTrim N = N) (hNne : N ≠ []) :
    jsTrim (chars "  - name: " ++ N) = chars "- name: " ++ N :=
  jsTrim_spaces
    (@jsTrim_stable_append (chars "- name: ") N (by decide) (by decide) hNt hNne) 2

theorem jsTrim_colname_line {N : Str} (hNt : jsTrim N = N) (hNne : N ≠ []) :
    jsTrim (chars "      - name: " ++ N) = chars "- name: " ++ N :=
  jsTrim_spaces
    (@jsTrim_stable_append (chars "- name: ") N (by decide) (by decide) hNt hNne) 6

theorem jsTrim_desc_line {d : Str} (hdt : jsTrim d = d) (hdne : d ≠ []) :
    jsTrim (chars "    description: " ++ d) = chars "description: " ++ d :=
  jsTrim_spaces
    (@jsTrim_stable_append (chars "description: ") d (by decide) (by decide) hdt hdne) 4

theorem nameFrom_line {N : Str} (hN : nameSafe N) : nameFrom (chars "- name: " ++ N) = N := by
  obtain ⟨hNne, ⟨hNt, -⟩, hNc⟩ := hN
  unfold nameFrom
  rw [show chars "- name: " ++ N = chars "- name" ++ ':' :: (' ' :: N) from rfl,
    splitOnC_append (by decide),
    splitOnC_of_not_mem (by
      intro hm
      rcases List.mem_cons.mp hm with h | h
      · exact absurd h (by decide)
      · exact hNc h)]
  simp only [List.getD_cons_succ, List.getD_cons_zero]
  exact jsTrim_space_cons hNt

theorem descFrom_line {d : Str} (hdt : jsTrim d = d) :
    descFrom (chars "description: " ++ d) = d := by
  unfold descFrom
  rw [show chars "description: " ++ d = chars "description" ++ ':' :: (' ' :: d) from rfl,
    splitOnC_append (by decide)]
  simp only [List.drop_succ_cons, List.drop_zero]
  rw [joinSep_splitOnC]
  exact jsTrim_space_cons hdt

theorem pstep_nil (st : PSt) : pstep st [] = st := rfl

theorem pstep_columns (st : PSt) : pstep st (chars "    columns:") = { st with inCols := true } :=
  rfl

theorem pstep_header_v (st : PSt) : pstep st (chars "version: 2") = st := rfl

theorem pstep_header_m (st : PSt) : pstep st (chars "models:") = st := rfl

theorem pstep_name {st : PSt} {N : Str} (hic : st.inCols = false) (hN : nameSafe N) :
    pstep st (chars "  - name: " ++ N)
      = { cur := some { name := N }, cols := [], inCols := false, acc := flushModel st } := by
  obtain ⟨hNne, ⟨hNt, hNnl⟩, hNc⟩ := hN
  have ht : jsTrim (chars "  - name: " ++ N) = chars "- name: " ++ N :=
    jsTrim_name_line hNt hNne
  have hsw : startsWithL (chars "- name: " ++ N) (chars "- name:") = true := by
    rw [show chars "- name: " ++ N = chars "- name:" ++ (' ' :: N) from rfl]
    exact startsWithL_append_self _ _
  simp only [pstep]
  rw [ht, hsw, hic]
  simp only [Bool.not_false, Bool.and_true, if_true]
  rw [nameFrom_line ⟨hNne, ⟨hNt, hNnl⟩, hNc⟩]

theorem pstep_desc {st : PSt} {mr : ModelRec} {d : Str} (hcur : st.cur = some mr)
    (hdt : jsTrim d = d) (hdne : d ≠ []) :
    pstep st (chars "    description: " ++ d)
      = { st with cur := some { mr with description := some d } } := by
  have ht : jsTrim (chars "    description: " ++ d) = chars "description: " ++ d :=
    jsTrim_desc_line hdt hdne
  have hsw1 : startsWithL (chars "description: " ++ d) (chars "- name:") = false :=
    startsWithL_false_of_head_ne (by decide) _ _
  have hsw2 : startsWithL (chars "description: " ++ d) (chars "description:") = true := by
    rw [show chars "description: " ++ d = chars "description:" ++ (' ' :: d) from rfl]
    exact startsWithL_append_self _ _
  simp only [pstep]
  rw [ht, hsw1, hsw2, hcur]
  simp only [Bool.false_and, Bool.false_eq_true, if_false, Option.isSome_some,
    Bool.and_true, if_true, Option.map_some']
  rw [descFrom_line hdt]

theorem pstep_colline {st : PSt} {C : Str} (hic : st.inCols = true) (hC : nameSafe C) :
    pstep st (chars "      - name: " ++ C)
      = { st with cols := st.cols ++ [{ name := C }] } := by
  obtain ⟨hCne, ⟨hCt, hCnl⟩, hCc⟩ := hC
  have ht : jsTrim (chars "      - name: " ++ C) = chars "- name: " ++ C :=
    jsTrim_colname_line hCt hCne
  have hsw : startsWithL (chars "- name: " ++ C) (chars "- name:") = true := by
    rw [show chars "- name: " ++ C = chars "- name:" ++ (' ' :: C) from rfl]
    exact startsWithL_append_self _ _
  have hsw2 : startsWithL (chars "- name: " ++ C) (chars "description:") = false :=
    startsWithL_false_of_head_ne (by decide) _ _
  have hbeq : ((chars "- name: " ++ C : Str) == chars "columns:") = false := by
    refine beq_eq_false_iff_ne.mpr ?_
    intro hcontra
    have h0 := congrArg List.head? hcontra
    rw [show (chars "- name: " ++ C).head? = some '-' from rfl] at h0
    exact absurd h0 (by decide)
  simp only [pstep]
  rw [ht, hsw, hsw2, hic, hbeq]
  simp only [Bool.not_true, Bool.and_false, Bool.false_eq_true, if_false, Bool.false_and,
    Bool.and_true, if_true]
  rw [nameFrom_line ⟨hCne, ⟨hCt, hCnl⟩, hCc⟩]

theorem pstep_collines {cs : List ColRec} (h : ∀ c ∈ cs, colOk c) :
    ∀ st : PSt, st.inCols = true →
      List.foldl pstep st (cs.map (fun c => chars "      - name: " ++ c.name))
        = { st with cols := st.cols ++ cs.map colRecOf } := by
  induction cs with
  | nil =>
    intro st hic
    cases st
    simp
  | cons c ct ih =>
    intro st hic
    rw [List.map_cons, List.foldl_cons, pstep_colline hic (h c (List.mem_cons_self c ct)).1,
      ih (fun x hx => h x (List.mem_cons_of_mem c hx))
        { st with cols := st.cols ++ [{ name := c.name }] } hic]
    cases st
    simp [colRecOf]

theorem foldl_pstep_cols {cs : List ColRec} (h : ∀ c ∈ cs, colOk c) (st : PSt)
    (hic : st.inCols = true) :
    List.foldl pstep st (cs.map (fun c => chars "      - name: " ++ c.name) ++ [[]])
      = { st with cols := st.cols ++ cs.map colRecOf } := by
  rw [List.foldl_append, pstep_collines h st hic, List.foldl_cons, List.foldl_nil]
  exact pstep_nil _

theorem pstep_tailC {m : ModelRec}
    (hcols : ∀ cs, m.columns = some cs → ∀ c ∈ cs, colOk c) (st : PSt)
    (hic : st.inCols = false) :
    List.foldl pstep st
      ((match m.columns with
        | some cs =>
            if cs.isEmpty then []
            else chars "    columns:" :: cs.map (fun c => chars "      - name: " ++ c.name)
        | none => []) ++ [[]])
      = { st with cols := st.cols ++ colsOf m, inCols := !(colsOf m).isEmpty } := by
  rcases hcm : m.columns with _ | cs
  · simp only [hcm, colsOf, List.nil_append, List.foldl_cons, List.foldl_nil, pstep_nil,
      List.append_nil, Bool.not_true]
    cases st
    simp at hic
    simp [hic]
  · by_cases hce : cs.isEmpty = true
    · simp only [hcm, colsOf, hce, if_true, List.nil_append, List.foldl_cons, List.foldl_nil,
        pstep_nil, List.append_nil, Bool.not_true]
      cases st
      simp at hic
      simp [hic]
    · have hce' : cs.isEmpty = false := by simpa using hce
      simp only [hcm, colsOf, hce', Bool.false_eq_true, if_false, List.cons_append,
        List.foldl_cons, pstep_columns]
      rw [foldl_pstep_cols (hcols cs hcm) { st with inCols := true } rfl]
      have hmapne : (cs.map colRecOf).isEmpty = false := by
        cases cs with
        | nil => exact absurd hce' (by simp)
        | cons a t => simp
      cases st
      simp [hmapne]

theorem pstep_block {st : PSt} {m : ModelRec} (hm : modelOk m) (hic : st.inCols = false) :
    List.foldl pstep st (modelLines m)
      = { cur := some (entryOf m), cols := colsOf m,
          inCols := !(colsOf m).isEmpty, acc := flushModel st } := by
  obtain ⟨hname, hdesc, -, hcols⟩ := hm
  unfold modelLines
  rw [show ([chars "  - name: " ++ m.name]
        ++ (match m.description with
            | some d => if d.isEmpty then [] else [chars "    description: " ++ d]
            | none => [])
        ++ (match m.columns with
            | some cs =>
                if cs.isEmpty then []
                else chars "    columns:" :: cs.map (fun c => chars "      - name: " ++ c.name)
            | none => [])
        ++ [[]])
      = (chars "  - name: " ++ m.name)
        :: ((match m.description with
            | some d => if d.isEmpty then [] else [chars "    description: " ++ d]
            | none => [])
          ++ ((match m.columns with
            | some cs =>
                if cs.isEmpty then []
                else chars "    columns:" :: cs.map (fun c => chars "      - name: " ++ c.name)
            | none => [])
          ++ [[]])) from by simp]
  rw [List.foldl_cons, pstep_name hic hname]
  rcases hdm : m.description with _ | d
  · simp only [hdm, List.nil_append]
    rw [pstep_tailC hcols _ rfl]
    simp [entryOf, normD, hdm]
  · by_cases hde : d.isEmpty = true
    · simp only [hdm, hde, if_true, List.nil_append]
      rw [pstep_tailC hcols _ rfl]
      simp [entryOf, normD, hdm, hde]
    · have hde' : d.isEmpty = false := by simpa using hde
      have hdne : d ≠ [] := by
        intro h
        rw [h] at hde'
        exact absurd hde' (by decide)
      simp only [hdm, hde', Bool.false_eq_true, if_false, List.singleton_append,
        List.cons_append, List.nil_append, List.foldl_cons]
      rw [pstep_desc rfl (hdesc d hdm).1 hdne]
      rw [pstep_tailC hcols _ rfl]
      simp [entryOf, normD, hdm, hde']

theorem colsOf_empty_of {m : ModelRec} (h : colsEmptyOf m) : colsOf m = [] := by
  unfold colsOf
  rcases h with h | h <;> rw [h] <;> simp

theorem pstep_models {ms : List ModelRec} (hms : ∀ m ∈ ms, modelOk m)
    (hlast : ∀ m ∈ ms.dropLast, colsEmptyOf m) :
    ∀ st : PSt, st.inCols = false →
      flushModel (List.foldl pstep st (ms.map modelLines).flatten)
        = flushModel st ++ ms.map normModel := by
  induction ms with
  | nil =>
    intro st hic
    simp
  | cons m mt ih =>
    intro st hic
    rw [List.map_cons, List.flatten_cons, List.foldl_append,
      pstep_block (hms m (List.mem_cons_self m mt)) hic]
    cases mt with
    | nil =>
      simp only [List.map_nil, List.flatten_nil, List.foldl_nil]
      simp [flushModel, normModel]
    | cons m2 mt2 =>
      have hcem : colsEmptyOf m := hlast m (by
        rw [List.dropLast_cons₂]
        exact List.mem_cons_self _ _)
      have hcolsnil := colsOf_empty_of hcem
      rw [hcolsnil]
      simp only [List.isEmpty_nil, Bool.not_true]
      rw [ih (fun x hx => hms x (List.mem_cons_of_mem m hx))
        (fun x hx => hlast x (by
          rw [List.dropLast_cons₂]
          exact List.mem_cons_of_mem m hx))
        { cur := some (entryOf m), cols := [], inCols := false, acc := flushModel st } rfl]
      simp [flushModel, normModel, hcolsnil]

theorem joinLines_nil : joinLines [] = [] := rfl

theorem joinLines_singleton (l : Str) : joinLines [l] = l ++ ['\n'] := rfl

theorem colYaml_ok {c : ColRec} (hc : colOk c) :
    colYaml c = chars "      - name: " ++ c.name ++ ['\n'] := by
  obtain ⟨-, hd, ht⟩ := hc
  unfold colYaml
  rcases hd with hd | hd <;> rcases ht with ht | ht <;> rw [hd, ht] <;> simp

theorem foldl_colYaml {cs : List ColRec} (h : ∀ c ∈ cs, colOk c) :
    ∀ acc : Str, cs.foldl (fun a c => a ++ colYaml c) acc
      = acc ++ joinLines (cs.map (fun c => chars "      - name: " ++ c.name)) := by
  induction cs with
  | nil =>
    intro acc
    simp [joinLines_nil]
  | cons c ct ih =>
    intro acc
    rw [List.foldl_cons, ih (fun x hx => h x (List.mem_cons_of_mem c hx)), List.map_cons,
      joinLines_cons, colYaml_ok (h c (List.mem_cons_self c ct))]
    simp

theorem modelYaml_eq {m : ModelRec} (hm : modelOk m) :
    modelYaml m = joinLines (modelLines m) := by
  obtain ⟨-, -, ht, hcols⟩ := hm
  have hT : (match m.tests with
      | some ts =>
          if ts.isEmpty then []
          else chars "    tests:\n"
            ++ ts.foldl (fun a t => a ++ chars "      - " ++ t ++ ['\n']) []
      | none => ([] : Str)) = [] := by
    rcases ht with ht | ht <;> simp [ht]
  have hD : (match m.description with
      | some d => if d.isEmpty then [] else chars "    description: " ++ d ++ ['\n']
      | none => ([] : Str))
      = joinLines (match m.description with
        | some d => if d.isEmpty then [] else [chars "    description: " ++ d]
        | none => []) := by
    rcases m.description with _ | d
    · rfl
    · by_cases hde : d.isEmpty = true
      · simp [hde, joinLines_nil]
      · have hde' : d.isEmpty = false := by simpa using hde
        simp only [hde', Bool.false_eq_true, if_false, joinLines_singleton]
  have hC : (match m.columns with
      | some cs =>
          if cs.isEmpty then []
          else chars "    columns:\n" ++ cs.foldl (fun a c => a ++ colYaml c) []
      | none => ([] : Str))
      = joinLines (match m.columns with
        | some cs =>
            if cs.isEmpty then []
            else chars "    columns:" :: cs.map (fun c => chars "      - name: " ++ c.name)
        | none => []) := by
    rcases hcm : m.columns with _ | cs
    · rfl
    · by_cases hce : cs.isEmpty = true
      · simp [hce, joinLines_nil]
      · have hce' : cs.isEmpty = false := by simpa using hce
        simp only [hce', Bool.false_eq_true, if_false, joinLines_cons]
        rw [foldl_colYaml (hcols cs hcm) []]
        simp [show chars "    columns:\n" = chars "    columns:" ++ ['\n'] from rfl]
  unfold modelYaml modelLines
  rw [hT, hD, hC, joinLines_append, joinLines_append, joinLines_append,
    joinLines_singleton, joinLines_singleton]
  simp

theorem foldl_modelYaml {ms : List ModelRec} (h : ∀ m ∈ ms, modelOk m) :
    ∀ acc : Str, ms.foldl (fun a m => a ++ modelYaml m) acc
      = acc ++ joinLines (ms.map modelLines).flatten := by
  induction ms with
  | nil =>
    intro acc
    simp [joinLines_nil]
  | cons m mt ih =>
    intro acc
    rw [List.foldl_cons, ih (fun x hx => h x (List.mem_cons_of_mem m hx)), List.map_cons,
      List.flatten_cons, joinLines_append, modelYaml_eq (h m (List.mem_cons_self m mt))]
    simp

theorem modelLines_no_nl {m : ModelRec} (hm : modelOk m) :
    ∀ l ∈ modelLines m, ('\n' : Char) ∉ l := by
  obtain ⟨⟨-, ⟨-, hNnl⟩, -⟩, hdesc, -, hcols⟩ := hm
  intro l hl
  unfold modelLines at hl
  rcases List.mem_append.mp hl with h1 | h1
  · rcases List.mem_append.mp h1 with h2 | h2
    · rcases List.mem_append.mp h2 with h3 | h3
      · rw [List.mem_singleton.mp h3]
        intro hmem
        rcases List.mem_append.mp hmem with h4 | h4
        · exact absurd h4 (by decide)
        · exact hNnl h4
      · rcases hdm : m.description with _ | d
        · rw [hdm] at h3
          exact absurd h3 (by simp)
        · rw [hdm] at h3
          simp only at h3
          by_cases hde : d.isEmpty = true
          · rw [if_pos hde] at h3
            exact absurd h3 (by simp)
          · rw [if_neg hde] at h3
            rw [List.mem_singleton.mp h3]
            intro hmem
            rcases List.mem_append.mp hmem with h4 | h4
            · exact absurd h4 (by decide)
            · exact (hdesc d hdm).2 h4
    · rcases hcm : m.columns with _ | cs
      · rw [hcm] at h2
        exact absurd h2 (by simp)
      · rw [hcm] at h2
        simp only at h2
        by_cases hce : cs.isEmpty = true
        · rw [if_pos hce] at h2
          exact absurd h2 (by simp)
        · rw [if_neg hce] at h2
          rcases List.mem_cons.mp h2 with h3 | h3
          · rw [h3]
            decide
          · obtain ⟨c, hcmem, hcl⟩ := List.mem_map.mp h3
            rw [← hcl]
            intro hmem
            rcases List.mem_append.mp hmem with h4 | h4
            · exact absurd h4 (by decide)
            · exact (hcols cs hcm c hcmem).1.2.1.2 h4
  · rw [List.mem_singleton.mp h1]
    simp

theorem generateBasicYaml_lines {doc : SchemaData} (hv : doc.version = 2)
    (hms : ∀ m ∈ doc.models, modelOk m) :
    generateBasicYaml doc
      = joinLines ([chars "version: 2", [], chars "models:"]
          ++ (doc.models.map modelLines).flatten) := by
  unfold generateBasicYaml
  rw [hv, foldl_modelYaml hms []]
  rfl

theorem parse_generate {doc : SchemaData} (h : docOk doc) :
    parseBasicYaml (generateBasicYaml doc)
      = { version := 2, models := doc.models.map normModel } := by
  obtain ⟨hv, hms, hlast⟩ := h
  rw [generateBasicYaml_lines hv hms]
  unfold parseBasicYaml
  rw [splitNl_joinLines (by
    intro l hl
    rcases List.mem_append.mp hl with h1 | h1
    · rcases List.mem_cons.mp h1 with h2 | h2
      · rw [h2]; decide
      rcases List.mem_cons.mp h2 with h3 | h3
      · rw [h3]; decide
      rcases List.mem_cons.mp h3 with h4 | h4
      · rw [h4]; decide
      · exact absurd h4 (by simp)
    · obtain ⟨ls, hls, hlmem⟩ := List.mem_flatten.mp h1
      obtain ⟨m0, hm0, hls2⟩ := List.mem_map.mp hls
      rw [← hls2] at hlmem
      exact modelLines_no_nl (hms m0 hm0) l hlmem)]
  simp only
  rw [show ([chars "version: 2", [], chars "models:"]
        ++ (doc.models.map modelLines).flatten) ++ [[]]
      = [chars "version: 2", [], chars "models:"]
        ++ ((doc.models.map modelLines).flatten ++ [[]]) from by simp]
  rw [List.foldl_append, List.foldl_append]
  rw [show List.foldl pstep { cur := none, cols := [], inCols := false, acc := [] }
        [chars "version: 2", [], chars "models:"]
      = { cur := none, cols := [], inCols := false, acc := [] } from rfl]
  rw [List.foldl_cons, List.foldl_nil, pstep_nil]
  rw [pstep_models hms hlast
    { cur := none, cols := [], inCols := false, acc := [] } rfl]
  rfl

theorem modelOk_norm {m : ModelRec} (hm : modelOk m) : modelOk (normModel m) := by
  obtain ⟨hname, hdesc, -, hcols⟩ := hm
  have hD : ∀ d, normD m.description = some d → lineSafe d := by
    intro d hd
    unfold normD at hd
    rcases hdm : m.description with _ | d0
    · rw [hdm] at hd
      exact absurd hd (by simp)
    · rw [hdm] at hd
      simp only at hd
      by_cases hde : d0.isEmpty = true
      · rw [if_pos hde] at hd
        exact absurd hd (by simp)
      · rw [if_neg hde] at hd
        rw [← Option.some.inj hd]
        exact hdesc d0 hdm
  unfold normModel entryOf
  by_cases hce : (colsOf m).isEmpty = true
  · rw [if_pos hce]
    exact ⟨hname, hD, Or.inl rfl, fun cs hcs => absurd hcs (by simp)⟩
  · rw [if_neg hce]
    refine ⟨hname, hD, Or.inl rfl, fun cs hcs c hc => ?_⟩
    have hcs2 : cs = colsOf m := (Option.some.inj hcs).symm
    rcases hcm : m.columns with _ | cs0
    · rw [hcs2] at hc
      unfold colsOf at hc
      rw [hcm] at hc
      exact absurd hc (by simp)
    · rw [hcs2] at hc
      unfold colsOf at hc
      rw [hcm] at hc
      simp only at hc
      by_cases hce0 : cs0.isEmpty = true
      · rw [if_pos hce0] at hc
        exact absurd hc (by simp)
      · rw [if_neg hce0] at hc
        obtain ⟨c0, hc0, hc0e⟩ := List.mem_map.mp hc
        rw [← hc0e]
        exact ⟨(hcols cs0 hcm c0 hc0).1, Or.inl rfl, Or.inl rfl⟩

theorem modelLines_norm (m : ModelRec) : modelLines (normModel m) = modelLines m := by
  rcases hdm : m.description with _ | d <;> rcases hcm : m.columns with _ | cs0
  · simp [modelLines, normModel, entryOf, normD, colsOf, hdm, hcm]
  · by_cases hce : cs0.isEmpty = true
    · simp [modelLines, normModel, entryOf, normD, colsOf, hdm, hcm, hce]
    · have hce' : cs0.isEmpty = false := by simpa using hce
      have hne : cs0 ≠ [] := by
        intro h
        rw [h] at hce'
        exact absurd hce' (by decide)
      simp [modelLines, normModel, entryOf, normD, colsOf, hdm, hcm, hce', hne,
        List.map_map, colRecOf]
  · by_cases hde : d.isEmpty = true
    · simp [modelLines, normModel, entryOf, normD, colsOf, hdm, hcm, hde]
    · have hde' : d.isEmpty = false := by simpa using hde
      simp [modelLines, normModel, entryOf, normD, colsOf, hdm, hcm, hde']
  · by_cases hde : d.isEmpty = true <;> by_cases hce : cs0.isEmpty = true
    · simp [modelLines, normModel, entryOf, normD, colsOf, hdm, hcm, hde, hce]
    · have hce' : cs0.isEmpty = false := by simpa using hce
      have hne : cs0 ≠ [] := by
        intro h
        rw [h] at hce'
        exact absurd hce' (by decide)
      simp [modelLines, normModel, entryOf, normD, colsOf, hdm, hcm, hde, hce', hne,
        List.map_map, colRecOf]
    · have hde' : d.isEmpty = false := by simpa using hde
      simp [modelLines, normModel, entryOf, normD, colsOf, hdm, hcm, hde', hce]
    · have hde' : d.isEmpty = false := by simpa using hde
      have hce' : cs0.isEmpty = false := by simpa using hce
      have hne : cs0 ≠ [] := by
        intro h
        rw [h] at hce'
        exact absurd hce' (by decide)
      simp [modelLines, normModel, entryOf, normD, colsOf, hdm, hcm, hde', hce', hne,
        List.map_map, colRecOf]

theorem generate_norm {doc : SchemaData} (h : docOk doc) :
    generateBasicYaml { version := 2, models := doc.models.map normModel }
      = generateBasicYaml doc := by
  obtain ⟨hv, hms, -⟩ := h
  rw [generateBasicYaml_lines rfl (fun x hx => by
      obtain ⟨m0, hm0, hx2⟩ := List.mem_map.mp hx
      rw [← hx2]
      exact modelOk_norm (hms m0 hm0)),
    generateBasicYaml_lines hv hms]
  have hmm : (doc.models.map normModel).map modelLines = doc.models.map modelLines := by
    rw [List.map_map]
    exact List.map_congr_left (fun m0 hm0 => modelLines_norm m0)
  rw [show ({ version := 2, models := doc.models.map normModel } : SchemaData).models
      = doc.models.map normModel from rfl, hmm]

/-- C2 (amended): on the dialect the reader recovers — version 2, dialect-safe
model records (nonempty colon-free trim-stable names, line-safe descriptions,
no tests, name-only columns) where only the last model carries columns — the
write/read/write cycle is exact: reading a written document recovers precisely
the normalized records (empty descriptions become absent, columns reduce to
their names), and writing that recovery is byte-identical to the first write.
(Unrestricted, the original claim fails: a written column description is
re-read as the model description, written tests are dropped by the reader,
and every model after one carrying columns is swallowed into that model as
further column entries, so the second write differs from the first.) -/
theorem yaml_roundtrip_spec (doc : SchemaData) (h : docOk doc) :
    parseBasicYaml (generateBasicYaml doc)
      = { version := 2, models := doc.models.map normModel } ∧
    generateBasicYaml (parseBasicYaml (generateBasicYaml doc)) = generateBasicYaml doc := by
  have h1 := parse_generate h
  refine ⟨h1, ?_⟩
  rw [h1]
  exact generate_norm h

/-- Witness for C2 (amended) at a two-model document with a description and a
columned final model. -/
theorem yaml_roundtrip_spec_witness :
    docOk { version := 2, models :=
      [{ name := chars "stg_users", description := some (chars "User staging"),
         tests := none, columns := none },
       { name := chars "fct_orders", description := none, tests := none,
         columns := some [{ name := chars "id", description := none, tests := none },
                          { name := chars "total", description := none, tests := none }] }] }
    ∧ (parseBasicYaml (generateBasicYaml { version := 2, models :=
        [{ name := chars "stg_users", description := some (chars "User staging"),
           tests := none, columns := none },
         { name := chars "fct_orders", description := none, tests := none,
           columns := some [{ name := chars "id", description := none, tests := none },
                            { name := chars "total", description := none, tests := none }] }] })
      = { version := 2, models :=
          ([{ name := chars "stg_users", description := some (chars "User staging"),
              tests := none, columns := none },
            { name := chars "fct_orders", description := none, tests := none,
              columns := some [{ name := chars "id", description := none, tests := none },
                               { name := chars "total", description := none,
                                 tests := none }] }] : List ModelRec).map normModel }
      ∧ generateBasicYaml (parseBasicYaml (generateBasicYaml { version := 2, models :=
          [{ name := chars "stg_users", description := some (chars "User staging"),
             tests := none, columns := none },
           { name := chars "fct_orders", description := none, tests := none,
             columns := some [{ name := chars "id", description := none, tests := none },
                              { name := chars "total", description := none,
                                tests := none }] }] }))
        = generateBasicYaml { version := 2, models :=
            [{ name := chars "stg_users", description := some (chars "User staging"),
               tests := none, columns := none },
             { name := chars "fct_orders", description := none, tests := none,
               columns := some [{ name := chars "id", description := none, tests := none },
                                { name := chars "total", description := none,
                                  tests := none }] }] }) :=
  ⟨by decide, yaml_roundtrip_spec _ (by decide)⟩

end Dataweave
